import Mathlib

/-!
Verification of the baselib repository: shallow embedding of the vector /
slice / map / heap code (vector.c, _vector.h, slice.c, _slice.h, map.c,
heap.c) and proofs about it.

Modelling conventions:
* machine memory blocks are `List Nat` of bytes; pointers into the store of
  vectors are indices (`vecId`) into a `List vector_t`;
* `malloc`/`realloc` success is an explicit `Bool` oracle argument and the
  uninitialized contents of a fresh block is an explicit `fresh : List Nat`
  argument (C leaves malloc'ed memory unspecified);
* C loops are translated with an explicit fuel argument so that every
  definition is structurally recursive and kernel-reducible; the fuel
  supplied by the wrappers is provably sufficient;
* map keys / values are `Nat`, with `0` playing the role of the NULL
  pointer; heap items (`void *` compared by a user comparator) are an
  arbitrary inhabited type `α` with a comparator `α → α → Int`.
-/

set_option maxHeartbeats 1000000
set_option linter.unusedSectionVars false

/-! ### Raw byte-block primitives (memcpy-style reads and writes) -/

/-- Read `n` bytes at byte offset `off` of a block. -/
def readBytes (data : List Nat) (off n : Nat) : List Nat :=
  (data.drop off).take n

/-- Overwrite the bytes of a block starting at byte offset `off`. -/
def writeBytes (data : List Nat) (off : Nat) (bs : List Nat) : List Nat :=
  data.take off ++ bs ++ data.drop (off + bs.length)

/-! ### vector.c / _vector.h -/

/-- `struct vector` of `_vector.h`: a byte block `data` of
`item_size * number` bytes plus reference count, item size in bytes and
capacity `number` in items. -/
structure vector_t where
  data : List Nat
  ref_count : Nat
  item_size : Nat
  number : Nat
deriving DecidableEq, Repr

/-- The store of live vectors; a slice refers to its vector by index. -/
abbrev Store := List vector_t

/-- Loop of `get_2_power` in vector.c, with fuel (the C loop terminates
because `allocation` strictly grows; `fuel = number` iterations always
suffice since `allocation` starts at 8 and grows by at least 8). -/
def get_2_power_loop (number : Nat) : Nat → Nat → Nat
  | 0, allocation => allocation
  | fuel + 1, allocation =>
    if number > allocation then
      if number < 4096 then get_2_power_loop number fuel (allocation * 2)
      else get_2_power_loop number fuel (allocation + 4096)
    else allocation

/-- `get_2_power` of vector.c: smallest growth size for a requested item
count, starting from `ARRAY_MINIMUM_ALLOCATION_NUMBER = 8`. -/
def get_2_power (number : Nat) : Nat :=
  get_2_power_loop number number 8

/-- `vector_share` of vector.c: one more reference on the vector. -/
def vector_share (st : Store) (id : Nat) : Store :=
  match st.get? id with
  | none => st
  | some v => st.set id { v with ref_count := v.ref_count + 1 }

/-- `vector_grow` of vector.c.  Returns the id of the grown vector (`none`
models a NULL return) together with the store after the call.
`allocData` and `allocStruct` are the outcomes of the `realloc`/`malloc`
calls, `fresh` the unspecified contents of freshly allocated memory.
Note that the shared branch (`ref_count ≠ 1`) allocates the new block and
never copies the old bytes into it, exactly as the C source does, and that
it decrements `ref_count` before the `malloc` of the new struct. -/
def vector_grow (st : Store) (id : Nat) (allocData allocStruct : Bool)
    (fresh : List Nat) : Option Nat × Store :=
  match st.get? id with
  | none => (none, st)
  | some v =>
    let number := get_2_power (v.number + 1)
    if v.ref_count = 1 then
      -- realloc: keeps the old bytes, extends the block with junk
      if allocData then
        let data := (v.data ++ fresh).take (v.item_size * number)
        (some id, st.set id { v with data := data, number := number })
      else (none, st)
    else
      -- malloc of the new data block (no copy of the old contents)
      if allocData then
        -- `--vector->ref_count` happens before the struct malloc
        let st1 := st.set id { v with ref_count := v.ref_count - 1 }
        if allocStruct then
          (some st.length,
           st1 ++ [{ data := fresh.take (v.item_size * number),
                     ref_count := 1, item_size := v.item_size,
                     number := number }])
        else (none, st1)
      else (none, st)

/-! ### slice.c / _slice.h -/

/-- `struct slice` of `_slice.h`: a window `[start, start+len)` (in items)
onto a shared vector; the `use` pointer is opaque client data. -/
structure slice_t where
  vecId : Nat
  use : Nat
  start : Nat
  len : Nat
deriving DecidableEq, Repr

/-- `_slice_cap`: capacity left in the underlying vector past `start`. -/
def _slice_cap (st : Store) (s : slice_t) : Nat :=
  match st.get? s.vecId with
  | some v => v.number - s.start
  | none => 0

/-- `new_slice_from_slice` of slice.c: sub-window of a slice, sharing the
vector (the malloc of the slice struct itself is assumed to succeed). -/
def new_slice_from_slice (st : Store) (s : slice_t) (start beyond : Nat) :
    Option (Store × slice_t) :=
  if start > beyond ∨ beyond > s.len then none
  else some (vector_share st s.vecId,
             { vecId := s.vecId, use := 0,
               start := s.start + start, len := beyond - start })

/-- `_vector_write_item_at`: memcpy of `item_size` bytes into item slot
`index` of the vector's block. -/
def _vector_write_item_at (v : vector_t) (index : Nat) (bytes : List Nat) :
    vector_t :=
  { v with data := writeBytes v.data (index * v.item_size)
                     (bytes.take v.item_size) }

/-- `slice_write_item_at` of slice.c (result code −1 on a bad index). -/
def slice_write_item_at (st : Store) (s : slice_t) (index : Nat)
    (bytes : List Nat) : Int × Store :=
  if index ≥ s.len then (-1, st)
  else
    match st.get? s.vecId with
    | none => (-1, st)
    | some v =>
      (0, st.set s.vecId (_vector_write_item_at v (s.start + index) bytes))

/-- `slice_item_at` of slice.c: the bytes of item `index`, `none` for an
out-of-range index (C returns a NULL pointer). -/
def slice_item_at (st : Store) (s : slice_t) (index : Nat) :
    Option (List Nat) :=
  if index ≥ s.len then none
  else
    match st.get? s.vecId with
    | none => none
    | some v =>
      some (readBytes v.data ((s.start + index) * v.item_size) v.item_size)

/-- `_slice_make_room` of `_slice.h`: grow the underlying vector when the
slice is full; on success the slice follows the (possibly new) vector. -/
def _slice_make_room (st : Store) (s : slice_t) (allocData allocStruct : Bool)
    (fresh : List Nat) : Bool × Store × slice_t :=
  if s.len ≥ _slice_cap st s then
    match vector_grow st s.vecId allocData allocStruct fresh with
    | (none, st') => (false, st', s)
    | (some nid, st') => (true, st', { s with vecId := nid })
  else (true, st, s)

/-! #### slice_swap_items and its word-sized helpers (slice.c) -/

/-- One C word swap `tmp = *p1; *p1 = *p2; *p2 = tmp;` on `w`-byte words at
byte offsets `o1`, `o2` (the reads of each assignment happen before its
write, so overlapping offsets behave exactly as in C). -/
def swap_word (data : List Nat) (w o1 o2 : Nat) : List Nat :=
  let tmp := readBytes data o1 w
  let d1 := writeBytes data o1 (readBytes data o2 w)
  writeBytes d1 o2 tmp

/-- `_swap_uint64` of slice.c: `n` 8-byte word swaps, from index `n-1`
down to 0. -/
def _swap_uint64 (data : List Nat) (o1 o2 : Nat) : Nat → List Nat
  | 0 => data
  | i + 1 => _swap_uint64 (swap_word data 8 (o1 + 8 * i) (o2 + 8 * i)) o1 o2 i

/-- `_swap_uint32` of slice.c. -/
def _swap_uint32 (data : List Nat) (o1 o2 : Nat) : List Nat :=
  swap_word data 4 o1 o2

/-- `_swap_uint16` of slice.c (defined in the source but never called). -/
def _swap_uint16 (data : List Nat) (o1 o2 : Nat) : List Nat :=
  swap_word data 2 o1 o2

/-- `_swap_uint8` of slice.c. -/
def _swap_uint8 (data : List Nat) (o1 o2 : Nat) : List Nat :=
  swap_word data 1 o1 o2

/-- `slice_swap_items` of slice.c, faithfully including the remainder
cascade: note that the `item_size >= 2` branch calls `_swap_uint32`
(4-byte swap) even though its comment announces "at most 1 16-bit swap".
Byte offsets are taken from the start of the vector's block; the C code's
`start` pointer is `slice->start * item_size` bytes into the block. -/
def slice_swap_items (st : Store) (s : slice_t) (index1 index2 : Nat) :
    Int × Store :=
  if index1 = index2 ∨ index1 ≥ s.len ∨ index2 ≥ s.len then (-1, st)
  else
    match st.get? s.vecId with
    | none => (-1, st)
    | some v =>
      let item_size := v.item_size
      let base := s.start * item_size
      let offset1 := index1 * item_size
      let offset2 := index2 * item_size
      let step8 :=
        if item_size ≥ 8 then
          let d := _swap_uint64 v.data (base + offset1) (base + offset2)
                     (item_size / 8)
          let remaining := item_size % 8
          (d, offset1 + (item_size - remaining),
              offset2 + (item_size - remaining), remaining)
        else (v.data, offset1, offset2, item_size)
      let step4 :=
        if step8.2.2.2 ≥ 4 then
          (_swap_uint32 step8.1 (base + step8.2.1) (base + step8.2.2.1),
           step8.2.1 + 4, step8.2.2.1 + 4, step8.2.2.2 - 4)
        else step8
      let step2 :=
        if step4.2.2.2 ≥ 2 then
          (_swap_uint32 step4.1 (base + step4.2.1) (base + step4.2.2.1),
           step4.2.1 + 2, step4.2.2.1 + 2, step4.2.2.2 - 2)
        else step4
      let d :=
        if step2.2.2.2 > 0 then
          _swap_uint8 step2.1 (base + step2.2.1) (base + step2.2.2.1)
        else step2.1
      (0, st.set s.vecId { v with data := d })

/-- The byte-for-byte swap of two items that the specification describes:
item `i` receives the former bytes of item `j`, item `j` the former bytes
of item `i`, and every other byte is unchanged.  Modelled from the spec's
words for comparison with `slice_swap_items`. -/
def byte_swap_spec (data : List Nat) (item_size b1 b2 : Nat) : List Nat :=
  let x := readBytes data b1 item_size
  let y := readBytes data b2 item_size
  writeBytes (writeBytes data b1 y) b2 x

/-! ### map.c -/

/-- `map_entry_t` of map.c: key, data and cached hash.  Keys and data are
pointers; `0` models NULL (an in-table slot with key `0` is unused or
cleared). -/
structure centry where
  ckey : Nat
  cdata : Nat
  chash : Nat
deriving DecidableEq, Repr

/-- One hash bucket: the in-table primary slot plus its malloc'ed chain of
collision nodes (the `next` list of the slot). -/
structure bucket where
  slot : centry
  chain : List centry
deriving DecidableEq, Repr

def emptyBucket : bucket := ⟨⟨0, 0, 0⟩, []⟩

/-- `struct map` of map.c.  `table = []` models a NULL table. -/
structure map_t where
  table : List bucket
  hash_f : Option (Nat → Nat)
  same_f : Option (Nat → Nat → Bool)
  nb : Nat
  allocated : Nat
  n2power : Nat
  max_collision : Nat
  threshold : Nat

/-- The `greatest_prime` table of map.c (with its sentinel). -/
def greatest_prime : List Nat :=
  [7, 13, 31, 61, 127, 251, 509, 1021, 2039, 4093, 8191, 16381, 32749,
   65521, 131071, 262139, 524287, 1048573, 2097143, 4194301, 8388593,
   16777213, 33554393, 67108859, 134217689, 268435399, 536870909,
   1073741789, 2147483647, 4294967291, 8589934592]

/-- Scan loop of `get_prime`: first index (counting from `i`) whose prime
is at least `new_size`, or the list length if none. -/
def get_prime_scan (new_size : Nat) : List Nat → Nat → Nat
  | [], i => i
  | p :: rest, i =>
    if new_size ≤ p then i else get_prime_scan new_size rest (i + 1)

/-- `get_prime` of map.c: the largest prime below the power of two covering
`new_size`, together with that power of two (`n2power`). -/
def get_prime (new_size : Nat) : Nat × Nat :=
  let i := get_prime_scan new_size (greatest_prime.drop 1) 1
  let j := i - 1
  (greatest_prime.getD j 0, 2 ^ (3 + j))

/-- `new_map` of map.c (struct and table mallocs assumed to succeed): a
zeroed table of the prime size covering the request, and a collision
threshold of at least `MIN_COLLISIONS = 4`. -/
def new_map (hash_f : Option (Nat → Nat)) (same_f : Option (Nat → Nat → Bool))
    (size collisions : Nat) : map_t :=
  let threshold := if collisions ≥ 4 then collisions else 4
  if size ≠ 0 then
    let pn := get_prime (if size < 8 then 8 else size)
    { table := List.replicate pn.1 emptyBucket, hash_f := hash_f,
      same_f := same_f, nb := 0, allocated := pn.1, n2power := pn.2,
      max_collision := 0, threshold := threshold }
  else
    { table := [], hash_f := hash_f, same_f := same_f, nb := 0,
      allocated := 0, n2power := 0, max_collision := 0,
      threshold := threshold }

/-- `add_entry` of map.c on one bucket.  `allocOk` is the outcome of the
chain-node malloc (consulted only when the slot is occupied); `none`
models the C return value 0.  On success returns the bucket and the length
of the collision list after insertion.  When the slot is unused the entry
is written into the slot and `entry->next = NULL` drops any stale chain,
exactly as the source does. -/
def add_entry (b : bucket) (hash key data : Nat) (allocOk : Bool) :
    Option (bucket × Nat) :=
  if b.slot.ckey ≠ 0 then
    if allocOk then
      some ({ b with chain := b.chain ++ [⟨key, data, hash⟩] },
            b.chain.length + 2)
    else none
  else
    some ({ slot := ⟨key, data, hash⟩, chain := [] }, 1)

/-- The entries of a bucket in the order `rehash`, `map_keys`,
`map_process_entries` and `free_table` walk them: nothing at all when the
primary slot's key is NULL, otherwise the slot then the chain. -/
def bucket_entries (b : bucket) : List centry :=
  if b.slot.ckey ≠ 0 then b.slot :: b.chain else []

/-- Inner loop of `rehash`: insert the listed entries into the new table
under the new modulus, consuming one `oracle` flag per chain-node malloc.
`none` models the C early `return false`. -/
def rehash_entries (new_allocated : Nat) :
    List centry → List bucket → List Bool → Nat → Nat →
    Option (List bucket × List Bool × Nat × Nat)
  | [], new_table, oracle, nb, max_chained =>
    some (new_table, oracle, nb, max_chained)
  | e :: rest, new_table, oracle, nb, max_chained =>
    let index := e.chash % new_allocated
    let b := new_table.getD index emptyBucket
    let allocOk := if b.slot.ckey ≠ 0 then oracle.headD false else true
    let oracle' := if b.slot.ckey ≠ 0 then oracle.tail else oracle
    match add_entry b e.chash e.ckey e.cdata allocOk with
    | none => none
    | some (b', chained) =>
      rehash_entries new_allocated rest (new_table.set index b') oracle'
        (nb + 1) (max max_chained chained)

/-- Outer loop of `rehash` over the old table's buckets. -/
def rehash_buckets (new_allocated : Nat) :
    List bucket → List bucket → List Bool → Nat → Nat →
    Option (List bucket × List Bool × Nat × Nat)
  | [], new_table, oracle, nb, max_chained =>
    some (new_table, oracle, nb, max_chained)
  | b :: rest, new_table, oracle, nb, max_chained =>
    match rehash_entries new_allocated (bucket_entries b) new_table oracle
        nb max_chained with
    | none => none
    | some (new_table', oracle', nb', max_chained') =>
      rehash_buckets new_allocated rest new_table' oracle' nb' max_chained'

/-- `rehash` of map.c: rebuild all entries into `new_table`; on success
commit the new table and bookkeeping into the map, on any chain-node
allocation failure return `none` and leave the map untouched (the C code
only writes the map's fields after the loop completes).  The
`max_collision` update mirrors the C `uint32_t` subtraction
`max_chained - 1`. -/
def rehash (m : map_t) (new_table : List bucket)
    (new_allocated n2power : Nat) (oracle : List Bool) : Option map_t :=
  match rehash_buckets new_allocated m.table new_table oracle 0 0 with
  | none => none
  | some (new_table', _, nb, max_chained) =>
    some { m with table := new_table', allocated := new_allocated,
                  n2power := n2power,
                  max_collision := (max_chained + 2 ^ 32 - 1) % 2 ^ 32,
                  nb := nb }

/-- `make_room` of map.c: grow and rehash when the table is too full or
too collided.  Returns the C result code (1 grown, 0 nothing to do, −1
failure) and the map after the call. -/
def make_room (m : map_t) (tableAllocOk : Bool) (oracle : List Bool) :
    Int × map_t :=
  if 4 * (1 + m.nb) ≥ 3 * m.allocated ∨ m.max_collision > m.threshold then
    if m.n2power ≥ 4294967295 then (-1, m)
    else
      let pn := get_prime (if m.n2power ≠ 0 then 2 * m.n2power else 8)
      if tableAllocOk then
        let new_table := List.replicate pn.1 emptyBucket
        if m.table ≠ [] then
          match rehash m new_table pn.1 pn.2 oracle with
          | some m' => (1, m')
          | none => (-1, m)
        else
          (1, { m with table := new_table, allocated := pn.1,
                       n2power := pn.2, max_collision := 0, nb := 0 })
      else (-1, m)
  else (0, m)

/-- `hash_data` fallback / `map->hash_f` dispatch of `get_entry`. -/
def computeHash (m : map_t) (key : Nat) : Nat :=
  match m.hash_f with
  | some f => f key
  | none => key

/-- The key comparison of `get_entry`: the user's `same_f` when given,
pointer equality otherwise. -/
def same_check (m : map_t) (entryKey key : Nat) : Bool :=
  match m.same_f with
  | some f => f entryKey key
  | none => entryKey == key

/-- Where `get_entry` found the key: the bucket's in-table slot, or the
chain node at the given position. -/
inductive EntryLoc where
  | slot
  | node (i : Nat)
deriving DecidableEq, Repr

/-- Chain walk of `get_entry`. -/
def chain_find (m : map_t) (key : Nat) : List centry → Option Nat
  | [] => none
  | e :: rest =>
    if same_check m e.ckey key then some 0
    else (chain_find m key rest).map (· + 1)

/-- `get_entry` of map.c: walk the bucket of `key`'s hash, primary slot
first then the chain, and report where the key sits. -/
def get_entry (m : map_t) (key : Nat) : Option EntryLoc :=
  if key = 0 then none
  else if m.table = [] then none
  else
    let hash := computeHash m key
    let b := m.table.getD (hash % m.allocated) emptyBucket
    if same_check m b.slot.ckey key then some .slot
    else (chain_find m key b.chain).map .node

/-- `map_lookup_entry` of map.c: the data of the entry, `0` (NULL) when the
key is absent. -/
def map_lookup_entry (m : map_t) (key : Nat) : Nat :=
  match get_entry m key with
  | none => 0
  | some .slot =>
    (m.table.getD (computeHash m key % m.allocated) emptyBucket).slot.cdata
  | some (.node i) =>
    ((m.table.getD (computeHash m key % m.allocated) emptyBucket).chain.getD
      i ⟨0, 0, 0⟩).cdata

/-- `map_insert_entry` of map.c.  `tableAllocOk`/`oracle` feed `make_room`
and `rehash`, `insertAllocOk` the final `add_entry`'s chain-node malloc. -/
def map_insert_entry (m : map_t) (key data : Nat) (tableAllocOk : Bool)
    (oracle : List Bool) (insertAllocOk : Bool) : Bool × map_t :=
  if key = 0 then (false, m)
  else
    match get_entry m key with
    | some _ => (false, m)
    | none =>
      let hash := computeHash m key
      let r := make_room m tableAllocOk oracle
      if r.1 = -1 then (false, r.2)
      else
        let m1 := r.2
        let index := hash % m1.allocated
        match add_entry (m1.table.getD index emptyBucket) hash key data
            insertAllocOk with
        | none => (false, m1)
        | some (b, count) =>
          let collisions := count - 1
          (true,
           { m1 with table := m1.table.set index b,
                     max_collision := max m1.max_collision collisions,
                     nb := m1.nb + 1 })

/-- `map_delete_entry` of map.c: when the entry is the bucket's primary
slot (`prev == NULL`) the slot is cleared in place — key, data and hash
zeroed — while its `next` chain is left as it is; a chain node is unlinked
and freed. -/
def map_delete_entry (m : map_t) (key : Nat) : Bool × map_t :=
  match get_entry m key with
  | none => (false, m)
  | some loc =>
    let index := computeHash m key % m.allocated
    let b := m.table.getD index emptyBucket
    match loc with
    | .slot =>
      (true, { m with table := m.table.set index
                        { b with slot := ⟨0, 0, 0⟩ },
                      nb := m.nb - 1 })
    | .node i =>
      (true, { m with table := m.table.set index
                        { b with chain := b.chain.eraseIdx i },
                      nb := m.nb - 1 })

/-- `map_len` of map.c. -/
def map_len (m : map_t) : Nat := m.nb

/-- `map_keys` of map.c (the `cmp = NULL`, unsorted path): collect the keys
bucket by bucket; a bucket whose primary slot's key is NULL contributes
nothing, chain included. -/
def map_keys (m : map_t) : List Nat :=
  (m.table.map (fun b => (bucket_entries b).map centry.ckey)).flatten

/-! ### heap.c

The heap stores `void *` items in a pointer slice and reorders them with
`slice_swap_items`, whose `item_size = 8` path is a plain item swap; the
model therefore works directly on the list of live items (the first
`slice->len` item slots) of an arbitrary inhabited type `α`, ordered by a
comparator `cmp : α → α → Int` as in C.  Slice appends are modelled as
list appends (the underlying allocation is assumed to succeed). -/

section Heap

variable {α : Type} [Inhabited α]

/-- Swap the items at positions `i` and `j` (the effect of
`slice_swap_items` on two distinct in-range pointer items). -/
def swapItems (l : List α) (i j : Nat) : List α :=
  (l.set i (l.getD j default)).set j (l.getD i default)

/-- The child `percolate_down` selects below `fro`: the left child
`2*fro+1` when there is no right child, otherwise whichever of the two
children the comparator places higher (the source's `bigger`). -/
def pd_bigger (cmp : α → α → Int) (l : List α) (fro : Nat) : Nat :=
  if 2 * fro + 2 ≥ l.length then 2 * fro + 1
  else if cmp (l.getD (2 * fro + 1) default)
      (l.getD (2 * fro + 2) default) < 0 then 2 * fro + 2
  else 2 * fro + 1

/-- Loop of `percolate_down` in heap.c, with fuel (`fro` strictly
increases and stays below `l.length`, so `l.length` iterations always
suffice). -/
def pd_loop (cmp : α → α → Int) : Nat → List α → Nat → List α
  | 0, l, _ => l
  | fuel + 1, l, fro =>
    if 2 * fro + 1 ≥ l.length then l
    else if 0 ≤ cmp (l.getD fro default)
        (l.getD (pd_bigger cmp l fro) default) then l
    else pd_loop cmp fuel (swapItems l fro (pd_bigger cmp l fro))
      (pd_bigger cmp l fro)

/-- `percolate_down` of heap.c. -/
def percolate_down (cmp : α → α → Int) (l : List α) (fro : Nat) : List α :=
  if fro ≥ l.length / 2 then l
  else pd_loop cmp l.length l fro

/-- The `(parent, bigger_child)` pair `percolate_up` works on: for an even
index (a right child) the sibling left child is consulted to pick the
dominating child, exactly as the source does; an odd index is a lone left
child. -/
def pu_choice (cmp : α → α → Int) (l : List α) (fro : Nat) : Nat × Nat :=
  if fro % 2 = 0 then
    if 0 < cmp (l.getD fro default) (l.getD (fro - 1) default) then
      (fro / 2 - 1, fro)
    else (fro / 2 - 1, fro - 1)
  else ((fro - 1) / 2, fro)

/-- Loop of `percolate_up` in heap.c, with fuel (`fro` strictly decreases,
so `fro` iterations always suffice). -/
def pu_loop (cmp : α → α → Int) : Nat → List α → Nat → List α
  | 0, l, _ => l
  | fuel + 1, l, fro =>
    if fro = 0 then l
    else if 0 ≤ cmp (l.getD (pu_choice cmp l fro).1 default)
        (l.getD (pu_choice cmp l fro).2 default) then l
    else pu_loop cmp fuel
      (swapItems l (pu_choice cmp l fro).1 (pu_choice cmp l fro).2)
      (pu_choice cmp l fro).1

/-- `percolate_up` of heap.c. -/
def percolate_up (cmp : α → α → Int) (l : List α) (fro : Nat) : List α :=
  if fro ≥ l.length ∨ fro < 1 then l
  else pu_loop cmp fro l fro

/-- `heap_insert` of heap.c: append then percolate up from the last
position. -/
def heap_insert (cmp : α → α → Int) (l : List α) (x : α) : List α :=
  percolate_up cmp (l ++ [x]) ((l ++ [x]).length - 1)

/-- `heap_extract` of heap.c: return the root, move the last element into
the root slot, shrink by one and percolate down. -/
def heap_extract (cmp : α → α → Int) (l : List α) : Option α × List α :=
  if l.length = 0 then (none, l)
  else
    let root := l.getD 0 default
    if l.length = 1 then (some root, l.take 0)
    else
      let l1 := (l.set 0 (l.getD (l.length - 1) default)).take (l.length - 1)
      (some root, percolate_down cmp l1 0)

/-- `updade_item` of heap.c (source spelling kept): overwrite an item and
restore the invariant in the stated direction. -/
def updade_item (cmp : α → α → Int) (l : List α) (item : Nat) (x : α)
    (inc : Bool) : List α :=
  let l' := l.set item x
  if inc then percolate_up cmp l' item else percolate_down cmp l' item

/-- `heap_replace_at` of heap.c: the direction is chosen by comparing the
current item with the new value. -/
def heap_replace_at (cmp : α → α → Int) (l : List α) (item : Nat) (x : α) :
    Bool × List α :=
  if item ≥ l.length then (false, l)
  else if cmp (l.getD item default) x < 0 then
    (true, updade_item cmp l item x true)
  else (true, updade_item cmp l item x false)

/-- `heap_update_at` of heap.c: the caller states the direction. -/
def heap_update_at (cmp : α → α → Int) (l : List α) (item : Nat) (x : α)
    (inc : Bool) : Bool × List α :=
  if item ≥ l.length then (false, l)
  else (true, updade_item cmp l item x inc)

/-- `heap_insert_then_extract` of heap.c. -/
def heap_insert_then_extract (cmp : α → α → Int) (l : List α) (x : α) :
    α × List α :=
  if l.length = 0 then (x, l)
  else if 0 < cmp x (l.getD 0 default) then (x, l)
  else (l.getD 0 default, percolate_down cmp (l.set 0 x) 0)

/-- `heap_extract_then_insert` of heap.c. -/
def heap_extract_then_insert (cmp : α → α → Int) (l : List α) (x : α) :
    Option α × List α :=
  if l.length = 0 then (none, l ++ [x])
  else (some (l.getD 0 default), percolate_down cmp (l.set 0 x) 0)

/-- Heapify loop of `new_heap_from_slice`: percolate down from `i` back to
the root. -/
def heapify_loop (cmp : α → α → Int) (l : List α) : Nat → List α
  | 0 => percolate_down cmp l 0
  | i + 1 => heapify_loop cmp (percolate_down cmp l (i + 1)) i

/-- `new_heap_from_slice` of heap.c: build the heap in place, percolating
down from index `(n-1)/2` back to the root. -/
def new_heap_from_slice (cmp : α → α → Int) (l : List α) : List α :=
  if l.length > 1 then heapify_loop cmp l ((l.length - 1) / 2) else l

/-- `new_heap_from_data` of heap.c: copy the data into a fresh slice
(`new_slice_from_data`), then build as `new_heap_from_slice`. -/
def new_heap_from_data (cmp : α → α → Int) (l : List α) : List α :=
  new_heap_from_slice cmp l

/-- `check_children` of heap.c, with fuel (the parent index strictly
increases and recursion stops past `l.length`, so `l.length` iterations
suffice). -/
def check_children (cmp : α → α → Int) : Nat → List α → Nat → Bool
  | 0, _, _ => true
  | fuel + 1, l, parent =>
    if 2 * parent + 1 ≥ l.length then true
    else if cmp (l.getD parent default)
        (l.getD (2 * parent + 1) default) < 0 then false
    else
      if 2 * parent + 2 < l.length then
        if cmp (l.getD parent default)
            (l.getD (2 * parent + 2) default) < 0 then false
        else
          check_children cmp fuel l (2 * parent + 2) &&
            check_children cmp fuel l (2 * parent + 1)
      else check_children cmp fuel l (2 * parent + 1)

/-- `heap_check` of heap.c. -/
def heap_check (cmp : α → α → Int) (l : List α) : Bool :=
  if l.length < 2 then true
  else check_children cmp l.length l 0

/-- Repeated `heap_extract` until the heap is empty (fuel-driven; fuel
`l.length` extracts everything). -/
def extract_all (cmp : α → α → Int) : Nat → List α → List α
  | 0, _ => []
  | fuel + 1, l =>
    if l.length = 0 then []
    else
      match heap_extract cmp l with
      | (some r, l') => r :: extract_all cmp fuel l'
      | (none, _) => []

/-- The sequence of values returned by `l.length` successive
`heap_extract` calls. -/
def heap_extract_sequence (cmp : α → α → Int) (l : List α) : List α :=
  extract_all cmp l.length l

/-- The heap invariant of the specification: every valid child index is
dominated by its parent `(i-1)/2`. -/
def heapInv (cmp : α → α → Int) (l : List α) : Prop :=
  ∀ c, 0 < c → c < l.length →
    0 ≤ cmp (l.getD ((c - 1) / 2) default) (l.getD c default)

/-- All parent-child edges whose parent index is at least `k` hold; the
working invariant of `percolate_down` and of the heapify loop. -/
def heapInvPar (cmp : α → α → Int) (l : List α) (k : Nat) : Prop :=
  ∀ p c, k ≤ p → c < l.length → (c = 2 * p + 1 ∨ c = 2 * p + 2) →
    0 ≤ cmp (l.getD p default) (l.getD c default)

/-- The operations of the heap API, for stating invariant preservation
under arbitrary operation sequences. -/
inductive HeapOp (α : Type) where
  | insert (x : α)
  | extract
  | replaceAt (i : Nat) (x : α)
  | updateAt (i : Nat) (x : α) (inc : Bool)
  | insertThenExtract (x : α)
  | extractThenInsert (x : α)

/-- Run one heap operation on the stored items. -/
def applyOp (cmp : α → α → Int) (l : List α) : HeapOp α → List α
  | .insert x => heap_insert cmp l x
  | .extract => (heap_extract cmp l).2
  | .replaceAt i x => (heap_replace_at cmp l i x).2
  | .updateAt i x inc => (heap_update_at cmp l i x inc).2
  | .insertThenExtract x => (heap_insert_then_extract cmp l x).2
  | .extractThenInsert x => (heap_extract_then_insert cmp l x).2

/-- Run a sequence of heap operations. -/
def applyOps (cmp : α → α → Int) : List α → List (HeapOp α) → List α
  | l, [] => l
  | l, op :: ops => applyOps cmp (applyOp cmp l op) ops

/-- Side condition of one operation: `heap_update_at` must be called with
the correct direction; every other operation is unconditional. -/
def opOk (cmp : α → α → Int) (l : List α) : HeapOp α → Prop
  | .updateAt i x inc =>
    i < l.length →
      if inc then 0 ≤ cmp x (l.getD i default)
      else 0 ≤ cmp (l.getD i default) x
  | _ => True

/-- A sequence of operations each of which satisfies its side condition in
the state where it runs. -/
inductive ValidSeq (cmp : α → α → Int) : List α → List (HeapOp α) → Prop
  | nil (l : List α) : ValidSeq cmp l []
  | cons {l : List α} {op : HeapOp α} {ops : List (HeapOp α)} :
      opOk cmp l op → ValidSeq cmp (applyOp cmp l op) ops →
      ValidSeq cmp l (op :: ops)

end Heap

/-- The integer comparator used by the concrete max-heap scenario. -/
def intCmp (a b : Int) : Int := if a < b then -1 else if a = b then 0 else 1

/-- `j` lies in the subtree rooted at `i` of the implicit binary tree on
indices (children of `p` are `2p+1` and `2p+2`). -/
inductive Desc : Nat → Nat → Prop where
  | refl (i : Nat) : Desc i i
  | left {i k : Nat} : Desc (2 * i + 1) k → Desc i k
  | right {i k : Nat} : Desc (2 * i + 2) k → Desc i k

/-! ## Theorems

First the generic lemmas about the byte-block primitives, the store and
the index tree, then the per-claim results. -/

theorem writeBytes_length (data bs : List Nat) (off : Nat)
    (h : off + bs.length ≤ data.length) :
    (writeBytes data off bs).length = data.length := by
  simp only [writeBytes, List.length_append, List.length_take,
    List.length_drop]
  omega

theorem readBytes_writeBytes_self (data bs : List Nat) (off : Nat)
    (h : off + bs.length ≤ data.length) :
    readBytes (writeBytes data off bs) off bs.length = bs := by
  unfold readBytes writeBytes
  rw [List.append_assoc,
    List.drop_left' (by rw [List.length_take]; omega)]
  exact List.take_left bs _

theorem get?_eq_some_lt {β : Type} {l : List β} {i : Nat} {x : β}
    (h : l.get? i = some x) : i < l.length := by
  by_contra hc
  rw [List.get?_eq_none.mpr (by omega)] at h
  exact Option.noConfusion h

/-! ### Claims C1 and C3: vector_grow on a shared vector -/

/-- C1: refuted on the code.  Growing the shared vector
`{data = [42], ref_count = 2, item_size = 1, number = 1}` with both
allocations succeeding and zeroed fresh memory does allocate a new block
of the grown capacity, decrement the original's `ref_count` and return a
fresh vector with `ref_count = 1`, the same `item_size` and the new
capacity — but the prior capacity's bytes are never copied: item 0 of the
returned vector reads the junk of the fresh block (here 0), not the 42
readable through the old vector before the call. -/
theorem C1_vector_grow_shared_no_copy :
    vector_grow [⟨[42], 2, 1, 1⟩] 0 true true (List.replicate 8 0) =
      (some 1, [⟨[42], 1, 1, 1⟩, ⟨List.replicate 8 0, 1, 1, 8⟩]) ∧
    readBytes (List.replicate 8 0) (0 * 1) 1 ≠ readBytes [42] (0 * 1) 1 := by
  decide

/-- C3: refuted on the code.  On the same shared vector, when the data
malloc succeeds but the struct malloc fails, `vector_grow` returns NULL
— but the original vector's `ref_count` has already been decremented from
2 to 1, so a failing call does not leave the vector unchanged. -/
theorem C3_vector_grow_failure_decrements_ref_count :
    (vector_grow [⟨[42], 2, 1, 1⟩] 0 true false []).1 = none ∧
    (vector_grow [⟨[42], 2, 1, 1⟩] 0 true false []).2 = [⟨[42], 1, 1, 1⟩] := by
  decide

/-! ### Claims C5 and C10: slice_swap_items -/

/-- C5: refuted on the code.  On a slice of 2-byte items over the block
`[1,2,3,4,5,6,7,8]` (4 item slots), swapping items 0 and 1 goes through
the `item_size >= 2` branch, which calls `_swap_uint32` — a 4-byte swap —
so the bytes of item slot 2 are clobbered (they become `3,4`): the result
differs from the byte-for-byte swap of the two items, which leaves every
byte outside them unchanged. -/
theorem C5_swap_items_clobbers_outside_bytes :
    slice_swap_items [⟨[1, 2, 3, 4, 5, 6, 7, 8], 1, 2, 4⟩] ⟨0, 0, 0, 2⟩ 0 1 =
      (0, [⟨[3, 4, 1, 2, 3, 4, 7, 8], 1, 2, 4⟩]) ∧
    byte_swap_spec [1, 2, 3, 4, 5, 6, 7, 8] 2 (0 * 2) (1 * 2) =
      [3, 4, 1, 2, 5, 6, 7, 8] ∧
    ([3, 4, 1, 2, 3, 4, 7, 8] : List Nat) ≠ [3, 4, 1, 2, 5, 6, 7, 8] := by
  decide

/-- C10: `slice_swap_items` with equal indices returns −1 and leaves the
store untouched, and it returns 0 (success) exactly when the two indices
are distinct and both below the slice's length. -/
theorem C10_swap_items_guard (st : Store) (s : slice_t) (v : vector_t)
    (hv : st.get? s.vecId = some v) (i j : Nat) :
    slice_swap_items st s i i = (-1, st) ∧
    ((slice_swap_items st s i j).1 = 0 ↔ i ≠ j ∧ i < s.len ∧ j < s.len) := by
  constructor
  · unfold slice_swap_items
    simp
  · unfold slice_swap_items
    by_cases h : i = j ∨ i ≥ s.len ∨ j ≥ s.len
    · rw [if_pos h]
      simp only [Prod.fst]
      constructor
      · intro hc
        exact absurd hc (by decide)
      · intro hc
        rcases h with h | h | h
        · exact absurd h hc.1
        · omega
        · omega
    · rw [if_neg h, hv]
      simp only [Prod.fst]
      constructor
      · intro _
        push_neg at h
        exact ⟨h.1, by omega, by omega⟩
      · intro _
        trivial

/-- Witness for C10 at a concrete slice of two one-byte items. -/
theorem C10_swap_items_guard_witness :
    slice_swap_items [⟨[1, 2], 1, 1, 2⟩] ⟨0, 0, 0, 2⟩ 0 0 =
      (-1, [⟨[1, 2], 1, 1, 2⟩]) ∧
    ((slice_swap_items [⟨[1, 2], 1, 1, 2⟩] ⟨0, 0, 0, 2⟩ 0 1).1 = 0 ↔
      0 ≠ 1 ∧ 0 < (⟨0, 0, 0, 2⟩ : slice_t).len ∧
        1 < (⟨0, 0, 0, 2⟩ : slice_t).len) :=
  C10_swap_items_guard [⟨[1, 2], 1, 1, 2⟩] ⟨0, 0, 0, 2⟩ ⟨[1, 2], 1, 1, 2⟩
    rfl 0 1

/-! ### Claim C4: map_delete_entry on a bucket's primary slot -/

/-- C4: refuted on the code.  Build a map with 7 buckets (identity hash,
pointer-equality compare), insert the colliding keys 1 and 8 (both land
in bucket 1: primary slot 1, chain node 8), then delete key 1.  The
delete reports success and the primary slot is cleared in place, but the
second chain node is never promoted into the slot: iteration (`map_keys`)
skips the whole bucket and returns no keys at all, even though the map
still counts one entry and `map_lookup_entry` still finds key 8. -/
theorem C4_delete_primary_slot_orphans_chain :
    (map_delete_entry (map_insert_entry (map_insert_entry
      (new_map none none 8 0) 1 10 true [] true).2 8 20 true [] true).2 1).1 =
      true ∧
    map_keys (map_delete_entry (map_insert_entry (map_insert_entry
      (new_map none none 8 0) 1 10 true [] true).2 8 20 true [] true).2 1).2 =
      [] ∧
    map_len (map_delete_entry (map_insert_entry (map_insert_entry
      (new_map none none 8 0) 1 10 true [] true).2 8 20 true [] true).2 1).2 =
      1 ∧
    map_lookup_entry (map_delete_entry (map_insert_entry (map_insert_entry
      (new_map none none 8 0) 1 10 true [] true).2 8 20 true [] true).2 1).2
      8 = 20 := by
  decide

/-! ### Claim C2: aliasing of a sub-slice, before and after a fork -/

/-- `vector_grow` on a shared vector (`ref_count ≠ 1`) with both
allocations succeeding: the old vector loses one reference and a fresh
vector of the grown capacity is appended to the store. -/
theorem vector_grow_shared (st : Store) (id : Nat) (v : vector_t)
    (fresh : List Nat) (hv : st.get? id = some v)
    (hrc : v.ref_count ≠ 1) :
    vector_grow st id true true fresh =
      (some st.length,
       st.set id { v with ref_count := v.ref_count - 1 } ++
         [{ data := fresh.take (v.item_size * get_2_power (v.number + 1)),
            ref_count := 1, item_size := v.item_size,
            number := get_2_power (v.number + 1) }]) := by
  unfold vector_grow
  rw [hv]
  simp only [if_neg hrc, if_pos]

/-- C2: for a sub-slice `q` of `p` made by `new_slice_from_slice`, a write
through `p` at parent index `a + i` is read back through `q` at index `i`
(both windows alias the same vector); and once `_slice_make_room` grows
the shared vector through `q` — which forks `q` onto a brand-new vector —
`q` no longer aliases `p`\'s vector and writes through the forked slice
leave every read through `p` unchanged. -/
theorem C2_sub_slice_aliasing_and_fork
    (st : Store) (p : slice_t) (v : vector_t) (a b i : Nat) (d : List Nat)
    (st1 : Store) (q : slice_t)
    (hv : st.get? p.vecId = some v)
    (hrc : 1 ≤ v.ref_count)
    (hbound : (p.start + p.len) * v.item_size ≤ v.data.length)
    (hd : d.length = v.item_size)
    (hsub : new_slice_from_slice st p a b = some (st1, q))
    (hi : i < q.len) :
    ∀ st2, st2 = (slice_write_item_at st1 p (a + i) d).2 →
      slice_item_at st2 q i = some d ∧
      (∀ fresh, q.len ≥ _slice_cap st2 q →
        ∀ gr, gr = _slice_make_room st2 q true true fresh →
          gr.1 = true ∧ gr.2.2.vecId ≠ p.vecId ∧
          (∀ j e k,
            slice_item_at (slice_write_item_at gr.2.1 gr.2.2 j e).2 p k =
              slice_item_at gr.2.1 p k)) := by
  -- unpack the sub-slice creation
  unfold new_slice_from_slice at hsub
  by_cases hg : a > b ∨ b > p.len
  · rw [if_pos hg] at hsub
    exact absurd hsub (by simp)
  rw [if_neg hg] at hsub
  push_neg at hg
  obtain ⟨hab, hbp⟩ := hg
  have hplen : p.vecId < st.length := get?_eq_some_lt hv
  have hshare : vector_share st p.vecId =
      st.set p.vecId { v with ref_count := v.ref_count + 1 } := by
    unfold vector_share
    rw [hv]
  rw [hshare] at hsub
  simp only [Option.some.injEq, Prod.mk.injEq] at hsub
  obtain ⟨hst1, hq⟩ := hsub
  subst hst1
  subst hq
  have hi' : i < b - a := hi
  have hai : a + i < p.len := by omega
  -- the state after the write through the parent
  have hwrite : slice_write_item_at
      (st.set p.vecId { v with ref_count := v.ref_count + 1 }) p (a + i) d =
      (0, (st.set p.vecId { v with ref_count := v.ref_count + 1 }).set p.vecId
        (_vector_write_item_at { v with ref_count := v.ref_count + 1 }
          (p.start + (a + i)) d)) := by
    unfold slice_write_item_at
    rw [if_neg (by omega), List.get?_set_eq_of_lt _ hplen]
  intro st2 hst2
  rw [hwrite] at hst2
  subst hst2
  have hlen2 : ((st.set p.vecId { v with ref_count := v.ref_count + 1
      }).set p.vecId (_vector_write_item_at
        { v with ref_count := v.ref_count + 1 }
        (p.start + (a + i)) d)).length = st.length := by
    simp
  constructor
  · -- the write is visible through the sub-slice
    unfold slice_item_at
    rw [if_neg (by
      simp only [ge_iff_le, not_le]
      exact hi)]
    rw [List.get?_set_eq_of_lt _ (by simpa using hplen)]
    unfold _vector_write_item_at
    simp only []
    have harith : p.start + a + i = p.start + (a + i) := by omega
    show some (readBytes (writeBytes v.data ((p.start + (a + i)) * v.item_size)
      (d.take v.item_size)) ((p.start + a + i) * v.item_size) v.item_size) =
      some d
    rw [harith, ← hd, List.take_length,
      readBytes_writeBytes_self v.data d _ (by
        have h1 : (p.start + (a + i)) * d.length + d.length =
            (p.start + (a + i) + 1) * d.length := by ring
        rw [h1, hd]
        calc (p.start + (a + i) + 1) * v.item_size
            ≤ (p.start + p.len) * v.item_size :=
              Nat.mul_le_mul_right _ (by omega)
          _ ≤ v.data.length := hbound)]
  · -- growing through the sub-slice forks it onto a fresh vector
    intro fresh hcap gr hgr
    unfold _slice_make_room at hgr
    rw [if_pos hcap] at hgr
    rw [vector_grow_shared _ _ _ fresh
      (List.get?_set_eq_of_lt _ (by simpa using hplen))
      (by
        unfold _vector_write_item_at
        simp only []
        omega)] at hgr
    subst hgr
    refine ⟨rfl, ?_, ?_⟩
    · show ((st.set p.vecId _).set p.vecId _).length ≠ p.vecId
      rw [hlen2]
      omega
    · intro j e k
      -- a write through the forked slice cannot change reads through p
      simp only []
      unfold slice_write_item_at
      by_cases hj : j ≥ b - a
      · rw [if_pos hj]
      · rw [if_neg hj]
        rw [List.get?_append_right (by simp only [List.length_set]; omega)]
        simp only [List.length_set, Nat.sub_self, List.get?]
        unfold slice_item_at
        by_cases hk : k ≥ p.len
        · rw [if_pos hk, if_pos hk]
        · rw [if_neg hk, if_neg hk]
          rw [List.get?_set_ne _ _ (by omega),
            List.get?_append (by simp only [List.length_set]; omega)]

/-- Witness for C2: one vector of two one-byte items `[9,9]`, a parent
window over both items, and the sub-window over item 1.  Writing `7`
through the parent at index 1 is read back through the sub-slice at
index 0; growing through the (full) sub-slice forks it onto a new vector,
after which a write of `5` through the forked slice leaves the read
through the parent unchanged. -/
theorem C2_sub_slice_aliasing_and_fork_witness :
    slice_item_at
      (slice_write_item_at [⟨[9, 9], 2, 1, 2⟩] ⟨0, 0, 0, 2⟩ (1 + 0) [7]).2
      ⟨0, 0, 1, 1⟩ 0 = some [7] ∧
    (_slice_make_room
      (slice_write_item_at [⟨[9, 9], 2, 1, 2⟩] ⟨0, 0, 0, 2⟩ (1 + 0) [7]).2
      ⟨0, 0, 1, 1⟩ true true [0, 0, 0, 0, 0, 0, 0, 0]).1 = true ∧
    (_slice_make_room
      (slice_write_item_at [⟨[9, 9], 2, 1, 2⟩] ⟨0, 0, 0, 2⟩ (1 + 0) [7]).2
      ⟨0, 0, 1, 1⟩ true true [0, 0, 0, 0, 0, 0, 0, 0]).2.2.vecId ≠
      (⟨0, 0, 0, 2⟩ : slice_t).vecId ∧
    slice_item_at
      (slice_write_item_at
        (_slice_make_room
          (slice_write_item_at [⟨[9, 9], 2, 1, 2⟩] ⟨0, 0, 0, 2⟩ (1 + 0)
            [7]).2 ⟨0, 0, 1, 1⟩ true true [0, 0, 0, 0, 0, 0, 0, 0]).2.1
        (_slice_make_room
          (slice_write_item_at [⟨[9, 9], 2, 1, 2⟩] ⟨0, 0, 0, 2⟩ (1 + 0)
            [7]).2 ⟨0, 0, 1, 1⟩ true true [0, 0, 0, 0, 0, 0, 0, 0]).2.2
        0 [5]).2 ⟨0, 0, 0, 2⟩ 0 =
      slice_item_at
        (_slice_make_room
          (slice_write_item_at [⟨[9, 9], 2, 1, 2⟩] ⟨0, 0, 0, 2⟩ (1 + 0)
            [7]).2 ⟨0, 0, 1, 1⟩ true true [0, 0, 0, 0, 0, 0, 0, 0]).2.1
        ⟨0, 0, 0, 2⟩ 0 := by
  have h := C2_sub_slice_aliasing_and_fork [⟨[9, 9], 1, 1, 2⟩] ⟨0, 0, 0, 2⟩
    ⟨[9, 9], 1, 1, 2⟩ 1 2 0 [7] [⟨[9, 9], 2, 1, 2⟩] ⟨0, 0, 1, 1⟩
    rfl (by decide) (by decide) (by decide) (by decide) (by decide)
    (slice_write_item_at [⟨[9, 9], 2, 1, 2⟩] ⟨0, 0, 0, 2⟩ (1 + 0) [7]).2 rfl
  have hB := h.2 [0, 0, 0, 0, 0, 0, 0, 0] (by decide)
    (_slice_make_room
      (slice_write_item_at [⟨[9, 9], 2, 1, 2⟩] ⟨0, 0, 0, 2⟩ (1 + 0) [7]).2
      ⟨0, 0, 1, 1⟩ true true [0, 0, 0, 0, 0, 0, 0, 0]) rfl
  exact ⟨h.1, hB.1, hB.2.1, hB.2.2 0 [5] 0⟩

/-! ### Claim C8: a failed grow-and-rehash leaves the map intact -/

/-- `rehash` cannot fail on an empty bucket list (no chain-node malloc is
ever attempted). -/
theorem rehash_empty_table (m : map_t) (new_table : List bucket)
    (na np : Nat) (oracle : List Bool) (hm : m.table = []) :
    rehash m new_table na np oracle ≠ none := by
  unfold rehash
  rw [hm]
  simp [rehash_buckets]

/-- C8: a pending insert that triggers a resize, where the allocation of
the new bucket array fails (`tableAllocOk = false`) or some chain-node
allocation during rehashing fails (`rehash … = none`), makes
`map_insert_entry` return failure with the map — table, chains, entry
count, modulus and max-collision bookkeeping — exactly as before the
call, and the new key still absent. -/
theorem C8_resize_allocation_failure_leaves_map_intact
    (m : map_t) (key data : Nat) (tableAllocOk insertAllocOk : Bool)
    (oracle : List Bool)
    (hkey : key ≠ 0)
    (habsent : get_entry m key = none)
    (hresize : 4 * (1 + m.nb) ≥ 3 * m.allocated ∨
      m.max_collision > m.threshold)
    (hcap : m.n2power < 4294967295)
    (hfail : tableAllocOk = false ∨
      rehash m
        (List.replicate
          (get_prime (if m.n2power ≠ 0 then 2 * m.n2power else 8)).1
          emptyBucket)
        (get_prime (if m.n2power ≠ 0 then 2 * m.n2power else 8)).1
        (get_prime (if m.n2power ≠ 0 then 2 * m.n2power else 8)).2
        oracle = none) :
    map_insert_entry m key data tableAllocOk oracle insertAllocOk =
      (false, m) ∧
    get_entry m key = none := by
  refine ⟨?_, habsent⟩
  have hmr : make_room m tableAllocOk oracle = (-1, m) := by
    unfold make_room
    rw [if_pos hresize, if_neg (by omega)]
    rcases hfail with hf | hf
    · rw [hf]
      simp
    · by_cases ht : tableAllocOk = true
      · rw [ht]
        by_cases htab : m.table = []
        · exact absurd hf (rehash_empty_table _ _ _ _ _ htab)
        · simp only [if_pos htab, ite_true, if_true]
          rw [hf]
      · rw [Bool.not_eq_true] at ht
        rw [ht]
        simp
  unfold map_insert_entry
  rw [if_neg hkey, habsent, hmr]
  simp

/-- Witness for C8: a 7-bucket map holding the keys 1–5 sits at the
resize threshold; inserting key 6 when the new bucket array's allocation
fails returns failure and the exact same map. -/
theorem C8_resize_allocation_failure_witness :
    map_insert_entry
      ⟨[emptyBucket, ⟨⟨1, 1, 1⟩, []⟩, ⟨⟨2, 2, 2⟩, []⟩, ⟨⟨3, 3, 3⟩, []⟩,
        ⟨⟨4, 4, 4⟩, []⟩, ⟨⟨5, 5, 5⟩, []⟩, emptyBucket],
       none, none, 5, 7, 8, 0, 4⟩ 6 60 false [] true =
      (false,
       ⟨[emptyBucket, ⟨⟨1, 1, 1⟩, []⟩, ⟨⟨2, 2, 2⟩, []⟩, ⟨⟨3, 3, 3⟩, []⟩,
         ⟨⟨4, 4, 4⟩, []⟩, ⟨⟨5, 5, 5⟩, []⟩, emptyBucket],
        none, none, 5, 7, 8, 0, 4⟩) ∧
    get_entry
      ⟨[emptyBucket, ⟨⟨1, 1, 1⟩, []⟩, ⟨⟨2, 2, 2⟩, []⟩, ⟨⟨3, 3, 3⟩, []⟩,
        ⟨⟨4, 4, 4⟩, []⟩, ⟨⟨5, 5, 5⟩, []⟩, emptyBucket],
       none, none, 5, 7, 8, 0, 4⟩ 6 = none :=
  C8_resize_allocation_failure_leaves_map_intact _ 6 60 false true []
    (by decide) (by decide) (by decide) (by decide) (Or.inl rfl)

/-! ### Heap lemmas: comparator, index tree, swaps -/

section HeapProofs

variable {α : Type} [Inhabited α] {cmp : α → α → Int}

/-- A sign-consistent comparator compares every element as equal to
itself. -/
theorem cmp_self_nonneg (hf : ∀ a b, 0 < cmp a b ↔ cmp b a < 0) (a : α) :
    0 ≤ cmp a a := by
  have h := hf a a
  omega

/-- Flipping a non-positive comparison. -/
theorem cmp_flip_nonneg (hf : ∀ a b, 0 < cmp a b ↔ cmp b a < 0) {a b : α}
    (h : cmp a b ≤ 0) : 0 ≤ cmp b a := by
  by_contra hc
  exact absurd ((hf a b).mpr (by omega)) (by omega)

/-- Flipping a strictly negative comparison. -/
theorem cmp_lt_flip (hf : ∀ a b, 0 < cmp a b ↔ cmp b a < 0) {a b : α}
    (h : cmp a b < 0) : 0 ≤ cmp b a :=
  le_of_lt ((hf b a).mpr h)

theorem Desc.le {i j : Nat} (h : Desc i j) : i ≤ j := by
  induction h with
  | refl => exact Nat.le_refl _
  | left _ ih => omega
  | right _ ih => omega

theorem Desc.child_left (i : Nat) : Desc i (2 * i + 1) := .left (.refl _)

theorem Desc.child_right (i : Nat) : Desc i (2 * i + 2) := .right (.refl _)

theorem Desc.eq_or_ge {i j : Nat} (h : Desc i j) :
    j = i ∨ 2 * i + 1 ≤ j := by
  cases h with
  | refl => exact Or.inl rfl
  | left h => exact Or.inr h.le
  | right h => exact Or.inr (by have := h.le; omega)

theorem not_desc_of_lt {i j : Nat} (h : j < i) : ¬ Desc i j :=
  fun hd => absurd hd.le (by omega)

theorem Desc.trans {i j k : Nat} (hij : Desc i j) (hjk : Desc j k) :
    Desc i k := by
  induction hij with
  | refl => exact hjk
  | left _ ih => exact .left (ih hjk)
  | right _ ih => exact .right (ih hjk)

/-- Every positive index is inside the subtree of its parent `(j-1)/2`. -/
theorem desc_parent {j : Nat} (h : 0 < j) : Desc ((j - 1) / 2) j := by
  obtain ⟨m, hm⟩ : ∃ m, m = (j - 1) / 2 := ⟨_, rfl⟩
  rw [← hm]
  have hj : j = 2 * m + 1 ∨ j = 2 * m + 2 := by omega
  rcases hj with hj | hj
  · rw [hj]; exact Desc.child_left m
  · rw [hj]; exact Desc.child_right m

/-- Every index is in the subtree of the root. -/
theorem desc_root (j : Nat) : Desc 0 j := by
  induction j using Nat.strong_induction_on with
  | _ j ih =>
    rcases Nat.eq_zero_or_pos j with hz | hp
    · rw [hz]; exact .refl 0
    · exact (ih ((j - 1) / 2) (by omega)).trans (desc_parent hp)

/-- Inversion: a subtree member is the root or lies in a child subtree. -/
theorem Desc.inv {i j : Nat} (h : Desc i j) :
    j = i ∨ Desc (2 * i + 1) j ∨ Desc (2 * i + 2) j := by
  cases h with
  | refl => exact Or.inl rfl
  | left h => exact Or.inr (Or.inl h)
  | right h => exact Or.inr (Or.inr h)

theorem getD_set_self {l : List α} {n : Nat} (a d : α) (h : n < l.length) :
    (l.set n a).getD n d = a := by
  rw [List.getD_eq_get?, List.get?_set_eq_of_lt _ h]
  rfl

theorem getD_set_ne {l : List α} {m n : Nat} (a d : α) (h : m ≠ n) :
    (l.set m a).getD n d = l.getD n d := by
  rw [List.getD_eq_get?, List.get?_set_ne _ _ h, ← List.getD_eq_get?]

@[simp] theorem swapItems_length (l : List α) (i j : Nat) :
    (swapItems l i j).length = l.length := by
  simp [swapItems]

theorem getD_swapItems_fst {l : List α} {i j : Nat}
    (hi : i < l.length) (hj : j < l.length) :
    (swapItems l i j).getD i default = l.getD j default := by
  unfold swapItems
  by_cases hij : i = j
  · subst hij
    rw [getD_set_self _ _ (by simpa using hi)]
  · rw [getD_set_ne _ _ (Ne.symm hij), getD_set_self _ _ hi]

theorem getD_swapItems_snd {l : List α} {i j : Nat}
    (hi : i < l.length) (hj : j < l.length) :
    (swapItems l i j).getD j default = l.getD i default := by
  unfold swapItems
  rw [getD_set_self _ _ (by simpa using hj)]

theorem getD_swapItems_other {l : List α} {i j m : Nat}
    (hmi : m ≠ i) (hmj : m ≠ j) :
    (swapItems l i j).getD m default = l.getD m default := by
  unfold swapItems
  rw [getD_set_ne _ _ (Ne.symm hmj), getD_set_ne _ _ (Ne.symm hmi)]

/-- Moving the `j`-th element to the front while writing `x` into its
place is a permutation of putting `x` first. -/
theorem perm_getD_cons_set (d : α) :
    ∀ (t : List α) (j : Nat) (x : α), j < t.length →
      (t.getD j d :: t.set j x).Perm (x :: t) := by
  intro t
  induction t with
  | nil => intro j x h; simp at h
  | cons y s ih =>
    intro j x h
    cases j with
    | zero => exact List.Perm.swap x y s
    | succ m =>
      have h1 : (y :: s).getD (m + 1) d :: (y :: s).set (m + 1) x =
          s.getD m d :: y :: s.set m x := rfl
      rw [h1]
      exact ((List.Perm.swap y (s.getD m d) (s.set m x)).trans
        ((ih m x (by simpa using h)).cons y)).trans
        (List.Perm.swap x y s)

/-- Swapping two in-range items permutes the list. -/
theorem swapItems_perm :
    ∀ (l : List α) (i j : Nat), i < l.length → j < l.length →
      (swapItems l i j).Perm l := by
  intro l
  induction l with
  | nil => intro i j hi; simp at hi
  | cons a t ih =>
    intro i j hi hj
    cases i with
    | zero =>
      cases j with
      | zero => simp [swapItems]
      | succ m =>
        have h1 : swapItems (a :: t) 0 (m + 1) =
            t.getD m default :: t.set m a := rfl
        rw [h1]
        exact perm_getD_cons_set default t m a (by simpa using hj)
    | succ n =>
      cases j with
      | zero =>
        have h1 : swapItems (a :: t) (n + 1) 0 =
            t.getD n default :: t.set n a := rfl
        rw [h1]
        exact perm_getD_cons_set default t n a (by simpa using hi)
      | succ m =>
        have h1 : swapItems (a :: t) (n + 1) (m + 1) =
            a :: swapItems t n m := rfl
        rw [h1]
        exact (ih n m (by simpa using hi) (by simpa using hj)).cons a

end HeapProofs

section HeapProofs2

variable {α : Type} [Inhabited α] {cmp : α → α → Int}

theorem pd_bigger_cases (cmp : α → α → Int) (l : List α) (fro : Nat) :
    pd_bigger cmp l fro = 2 * fro + 1 ∨ pd_bigger cmp l fro = 2 * fro + 2 := by
  unfold pd_bigger
  split_ifs <;> omega

theorem pd_bigger_gt (cmp : α → α → Int) (l : List α) (fro : Nat) :
    fro < pd_bigger cmp l fro := by
  rcases pd_bigger_cases cmp l fro with h | h <;> omega

theorem pd_bigger_lt (cmp : α → α → Int) {l : List α} {fro : Nat}
    (h : 2 * fro + 1 < l.length) : pd_bigger cmp l fro < l.length := by
  unfold pd_bigger
  split_ifs <;> omega

/-- The selected child dominates both children. -/
theorem pd_bigger_dom (hf : ∀ a b, 0 < cmp a b ↔ cmp b a < 0)
    {l : List α} {fro : Nat} (h : 2 * fro + 1 < l.length) :
    ∀ c, (c = 2 * fro + 1 ∨ c = 2 * fro + 2) → c < l.length →
      0 ≤ cmp (l.getD (pd_bigger cmp l fro) default) (l.getD c default) := by
  intro c hc hcl
  unfold pd_bigger
  split_ifs with h1 h2
  · have hceq : c = 2 * fro + 1 := by omega
    rw [hceq]
    exact cmp_self_nonneg hf _
  · rcases hc with hc | hc
    · rw [hc]
      exact cmp_lt_flip hf h2
    · rw [hc]
      exact cmp_self_nonneg hf _
  · rcases hc with hc | hc
    · rw [hc]
      exact cmp_self_nonneg hf _
    · rw [hc]
      omega

theorem pd_loop_length (cmp : α → α → Int) :
    ∀ (fuel : Nat) (l : List α) (fro : Nat),
      (pd_loop cmp fuel l fro).length = l.length := by
  intro fuel
  induction fuel with
  | zero => intro l fro; rfl
  | succ fuel ih =>
    intro l fro
    unfold pd_loop
    split_ifs with h1 h2
    · rfl
    · rfl
    · rw [ih, swapItems_length]

/-- `percolate_down`'s loop only changes positions inside the subtree of
its starting index. -/
theorem pd_loop_untouched (cmp : α → α → Int) :
    ∀ (fuel : Nat) (l : List α) (fro j : Nat), ¬ Desc fro j →
      (pd_loop cmp fuel l fro).getD j default = l.getD j default := by
  intro fuel
  induction fuel with
  | zero => intro l fro j _; rfl
  | succ fuel ih =>
    intro l fro j hnd
    unfold pd_loop
    split_ifs with h1 h2
    · rfl
    · rfl
    · have hnd' : ¬ Desc (pd_bigger cmp l fro) j := by
        intro hd
        rcases pd_bigger_cases cmp l fro with hb | hb
        · exact hnd (.left (hb ▸ hd))
        · exact hnd (.right (hb ▸ hd))
      have hjfro : j ≠ fro := by
        intro hj
        exact hnd (by rw [hj]; exact .refl _)
      have hjb : j ≠ pd_bigger cmp l fro := by
        intro hj
        exact hnd' (by rw [hj]; exact .refl _)
      rw [ih _ _ _ hnd', getD_swapItems_other hjfro hjb]

theorem pd_loop_perm (cmp : α → α → Int) :
    ∀ (fuel : Nat) (l : List α) (fro : Nat),
      (pd_loop cmp fuel l fro).Perm l := by
  intro fuel
  induction fuel with
  | zero => intro l fro; exact List.Perm.refl _
  | succ fuel ih =>
    intro l fro
    unfold pd_loop
    split_ifs with h1 h2
    · exact List.Perm.refl _
    · exact List.Perm.refl _
    · exact (ih _ _).trans
        (swapItems_perm l fro (pd_bigger cmp l fro)
          (by omega) (pd_bigger_lt cmp (by omega)))

/-- Any bound on the values inside the subtree of `fro` still bounds the
values there after the loop. -/
theorem pd_loop_bound (cmp : α → α → Int) :
    ∀ (fuel : Nat) (l : List α) (fro : Nat) (x : α),
      (∀ j, Desc fro j → j < l.length → 0 ≤ cmp x (l.getD j default)) →
      ∀ j, Desc fro j → j < l.length →
        0 ≤ cmp x ((pd_loop cmp fuel l fro).getD j default) := by
  intro fuel
  induction fuel with
  | zero => intro l fro x hb j hd hj; exact hb j hd hj
  | succ fuel ih =>
    intro l fro x hb j hd hj
    unfold pd_loop
    split_ifs with h1 h2
    · exact hb j hd hj
    · exact hb j hd hj
    · set b := pd_bigger cmp l fro with hbdef
      have hblt : b < l.length := pd_bigger_lt cmp (by omega)
      have hfrolt : fro < l.length := by omega
      have hfb : fro ≠ b := by have := pd_bigger_gt cmp l fro; omega
      have hdescb : Desc fro b := by
        rcases pd_bigger_cases cmp l fro with hc | hc
        · rw [hbdef, hc]; exact Desc.child_left fro
        · rw [hbdef, hc]; exact Desc.child_right fro
      have hswap : ∀ j, Desc b j → j < (swapItems l fro b).length →
          0 ≤ cmp x ((swapItems l fro b).getD j default) := by
        intro m hm hml
        rw [swapItems_length] at hml
        by_cases hmb : m = b
        · rw [hmb, getD_swapItems_snd hfrolt hblt]
          exact hb fro (.refl _) hfrolt
        · have hmf : m ≠ fro := by
            have := hm.le
            have := pd_bigger_gt cmp l fro
            omega
          rw [getD_swapItems_other hmf hmb]
          have hdm : Desc fro m := hdescb.trans hm
          exact hb m hdm hml
      by_cases hjb : Desc b j
      · exact ih (swapItems l fro b) b x hswap j hjb
          (by rw [swapItems_length]; exact hj)
      · rw [pd_loop_untouched cmp fuel _ _ _ hjb]
        by_cases hjf : j = fro
        · rw [hjf, getD_swapItems_fst hfrolt hblt]
          exact hb b hdescb hblt
        · have hjb' : j ≠ b := fun h => hjb (h ▸ .refl _)
          rw [getD_swapItems_other hjf hjb']
          exact hb j hd hj

end HeapProofs2

section HeapProofs3

variable {α : Type} [Inhabited α] {cmp : α → α → Int}

/-- If all parent-child edges with parent in the subtree of `r` hold, the
root `r` of that subtree dominates every member. -/
theorem desc_dominates (hf : ∀ a b, 0 < cmp a b ↔ cmp b a < 0)
    (ht : ∀ a b c, 0 ≤ cmp a b → 0 ≤ cmp b c → 0 ≤ cmp a c)
    {l : List α} : ∀ {r j : Nat}, Desc r j →
      (∀ p c, r ≤ p → c < l.length → (c = 2 * p + 1 ∨ c = 2 * p + 2) →
        0 ≤ cmp (l.getD p default) (l.getD c default)) →
      j < l.length → 0 ≤ cmp (l.getD r default) (l.getD j default) := by
  intro r j hdesc
  induction hdesc with
  | refl i =>
    intro _ _
    exact cmp_self_nonneg hf _
  | @left i k h ih =>
    intro hInv hj
    have h1 := ih (fun p c hp => hInv p c (by omega)) hj
    have h2 : 0 ≤ cmp (l.getD i default) (l.getD (2 * i + 1) default) :=
      hInv i (2 * i + 1) (Nat.le_refl _) (by have := h.le; omega)
        (Or.inl rfl)
    exact ht _ _ _ h2 h1
  | @right i k h ih =>
    intro hInv hj
    have h1 := ih (fun p c hp => hInv p c (by omega)) hj
    have h2 : 0 ≤ cmp (l.getD i default) (l.getD (2 * i + 2) default) :=
      hInv i (2 * i + 2) (Nat.le_refl _) (by have := h.le; omega)
        (Or.inr rfl)
    exact ht _ _ _ h2 h1

/-- Master lemma for `percolate_down`'s loop: when every edge with parent
above `k` holds, the loop restores every edge with parent at least `k`. -/
theorem pd_loop_invPar (hf : ∀ a b, 0 < cmp a b ↔ cmp b a < 0)
    (ht : ∀ a b c, 0 ≤ cmp a b → 0 ≤ cmp b c → 0 ≤ cmp a c) :
    ∀ (fuel : Nat) (l : List α) (k : Nat), l.length ≤ fuel + k →
      heapInvPar cmp l (k + 1) → heapInvPar cmp (pd_loop cmp fuel l k) k := by
  intro fuel
  induction fuel with
  | zero =>
    intro l k hfc H p c hp hc hcc
    exact absurd hc (by simp only [pd_loop]; omega)
  | succ fuel ih =>
    intro l k hfc H
    unfold pd_loop
    split_ifs with h1 h2
    · intro p c hp hc hcc
      by_cases hpk : p = k
      · exact absurd hc (by omega)
      · exact H p c (by omega) hc hcc
    · intro p c hp hc hcc
      by_cases hpk : p = k
      · rw [hpk] at hcc ⊢
        rcases hcc with hcc | hcc
        · rcases pd_bigger_cases cmp l k with hbc | hbc
          · rw [hcc, ← hbc]
            exact h2
          · exact ht _ _ _ h2
              (by rw [hcc]
                  exact pd_bigger_dom hf (by omega) _ (Or.inl rfl)
                    (by omega))
        · rcases pd_bigger_cases cmp l k with hbc | hbc
          · exact ht _ _ _ h2
              (by rw [hcc]
                  exact pd_bigger_dom hf (by omega) _ (Or.inr rfl)
                    (by omega))
          · rw [hcc, ← hbc]
            exact h2
      · exact H p c (by omega) hc hcc
    · set b := pd_bigger cmp l k with hbdef
      have hblt : b < l.length := pd_bigger_lt cmp (by omega)
      have hkb : k < b := pd_bigger_gt cmp l k
      have hble : b ≤ 2 * k + 2 := by
        rcases pd_bigger_cases cmp l k with h | h <;> omega
      have hbge : 2 * k + 1 ≤ b := by
        rcases pd_bigger_cases cmp l k with h | h <;> omega
      have hklt : k < l.length := by omega
      have hdescb : Desc k b := by
        rcases pd_bigger_cases cmp l k with h | h
        · rw [hbdef, h]; exact Desc.child_left k
        · rw [hbdef, h]; exact Desc.child_right k
      have hlen' : (swapItems l k b).length = l.length := swapItems_length l k b
      have H' : heapInvPar cmp (swapItems l k b) (b + 1) := by
        intro p c hp hc hcc
        rw [hlen'] at hc
        have hpk : p ≠ k := by omega
        have hpb : p ≠ b := by omega
        have hck : c ≠ k := by omega
        have hcb : c ≠ b := by omega
        rw [getD_swapItems_other hpk hpb, getD_swapItems_other hck hcb]
        exact H p c (by omega) hc hcc
      have hR := ih (swapItems l k b) b (by rw [hlen']; omega) H'
      intro p c hp hc hcc
      rw [pd_loop_length, hlen'] at hc
      by_cases hpge : b ≤ p
      · exact hR p c hpge (by rw [pd_loop_length, hlen']; exact hc) hcc
      · have hRk : (pd_loop cmp fuel (swapItems l k b) b).getD k default =
            l.getD b default := by
          rw [pd_loop_untouched cmp fuel _ b k (not_desc_of_lt hkb),
            getD_swapItems_fst hklt hblt]
        by_cases hpk : p = k
        · rw [hpk] at hcc ⊢
          by_cases hcbb : c = b
          · have hbound : 0 ≤ cmp (l.getD b default)
                ((pd_loop cmp fuel (swapItems l k b) b).getD b default) := by
              apply pd_loop_bound cmp fuel (swapItems l k b) b
                (l.getD b default) ?_ b (.refl _) (by rw [hlen']; exact hblt)
              intro m hm hml
              rw [hlen'] at hml
              by_cases hmb : m = b
              · rw [hmb, getD_swapItems_snd hklt hblt]
                exact cmp_lt_flip hf (by omega)
              · have hmk : m ≠ k := by have := hm.le; omega
                rw [getD_swapItems_other hmk hmb]
                exact desc_dominates hf ht hm
                  (fun p' c' hp' hc' hcc' => H p' c' (by omega) hc' hcc') hml
            rw [hcbb, hRk]
            exact hbound
          · have hcd : ¬ Desc b c := by
              intro hdc
              rcases hdc.eq_or_ge with h | h
              · exact hcbb h
              · omega
            have hck2 : c ≠ k := by omega
            have hcjoin : (pd_loop cmp fuel (swapItems l k b) b).getD c
                default = l.getD c default := by
              rw [pd_loop_untouched cmp fuel _ b c hcd,
                getD_swapItems_other hck2 hcbb]
            rw [hRk, hcjoin]
            exact pd_bigger_dom hf (by omega) c hcc hc
        · have hpb' : p < b := by omega
          have hndp : ¬ Desc b p := not_desc_of_lt hpb'
          have hndc : ¬ Desc b c := by
            intro hdc
            rcases hdc.eq_or_ge with h | h
            · omega
            · omega
          have hpknz : p ≠ k := hpk
          have hpbnz : p ≠ b := by omega
          have hcknz : c ≠ k := by omega
          have hcbnz : c ≠ b := by omega
          rw [pd_loop_untouched cmp fuel _ b p hndp,
            pd_loop_untouched cmp fuel _ b c hndc,
            getD_swapItems_other hpknz hpbnz,
            getD_swapItems_other hcknz hcbnz]
          exact H p c (by omega) hc hcc

theorem percolate_down_length (cmp : α → α → Int) (l : List α) (fro : Nat) :
    (percolate_down cmp l fro).length = l.length := by
  unfold percolate_down
  split_ifs with h
  · rfl
  · exact pd_loop_length cmp _ l fro

theorem percolate_down_perm (cmp : α → α → Int) (l : List α) (fro : Nat) :
    (percolate_down cmp l fro).Perm l := by
  unfold percolate_down
  split_ifs with h
  · exact List.Perm.refl _
  · exact pd_loop_perm cmp _ l fro

theorem percolate_down_untouched (cmp : α → α → Int) (l : List α)
    {fro j : Nat} (h : ¬ Desc fro j) :
    (percolate_down cmp l fro).getD j default = l.getD j default := by
  unfold percolate_down
  split_ifs with hg
  · rfl
  · exact pd_loop_untouched cmp _ l fro j h

theorem percolate_down_bound (cmp : α → α → Int) (l : List α) (fro : Nat)
    (x : α)
    (hb : ∀ j, Desc fro j → j < l.length → 0 ≤ cmp x (l.getD j default)) :
    ∀ j, Desc fro j → j < l.length →
      0 ≤ cmp x ((percolate_down cmp l fro).getD j default) := by
  unfold percolate_down
  split_ifs with hg
  · exact hb
  · exact pd_loop_bound cmp _ l fro x hb

theorem percolate_down_invPar (hf : ∀ a b, 0 < cmp a b ↔ cmp b a < 0)
    (ht : ∀ a b c, 0 ≤ cmp a b → 0 ≤ cmp b c → 0 ≤ cmp a c)
    (l : List α) (k : Nat) (H : heapInvPar cmp l (k + 1)) :
    heapInvPar cmp (percolate_down cmp l k) k := by
  unfold percolate_down
  split_ifs with h
  · intro p c hp hc hcc
    by_cases hpk : p = k
    · subst hpk
      exact absurd hc (by omega)
    · exact H p c (by omega) hc hcc
  · exact pd_loop_invPar hf ht l.length l k (by omega) H

theorem heapInv_iff_invPar_zero {l : List α} :
    heapInv cmp l ↔ heapInvPar cmp l 0 := by
  constructor
  · intro h p c hp hc hcc
    have h0 : 0 < c := by omega
    have hpar : (c - 1) / 2 = p := by omega
    have hh := h c h0 hc
    rw [hpar] at hh
    exact hh
  · intro h c hc hcl
    have hcc : c = 2 * ((c - 1) / 2) + 1 ∨ c = 2 * ((c - 1) / 2) + 2 := by
      omega
    exact h ((c - 1) / 2) c (Nat.zero_le _) hcl hcc

theorem heapInvPar_mono {l : List α} {k k' : Nat} (hk : k ≤ k')
    (h : heapInvPar cmp l k) : heapInvPar cmp l k' :=
  fun p c hp => h p c (by omega)

theorem heapInvPar_vacuous {l : List α} {k : Nat}
    (h : l.length ≤ 2 * k + 1) : heapInvPar cmp l k :=
  fun p c hp hc hcc => absurd hc (by omega)

theorem heapInv_small {l : List α} (h : l.length ≤ 1) : heapInv cmp l :=
  fun c h0 hc => absurd hc (by omega)

end HeapProofs3

section HeapProofs4

variable {α : Type} [Inhabited α] {cmp : α → α → Int}

/-- Both parity branches of `percolate_up` compute the parent index
`(fro-1)/2`. -/
theorem pu_choice_fst (cmp : α → α → Int) (l : List α) {fro : Nat}
    (h : fro ≠ 0) : (pu_choice cmp l fro).1 = (fro - 1) / 2 := by
  unfold pu_choice
  split_ifs with h1 h2 <;> simp only [] <;> omega

/-- The selected node is the starting index, or — for an even index whose
value does not dominate its sibling — the sibling. -/
theorem pu_choice_snd (cmp : α → α → Int) (l : List α) (fro : Nat) :
    (pu_choice cmp l fro).2 = fro ∨
    ((pu_choice cmp l fro).2 = fro - 1 ∧ fro % 2 = 0 ∧
      ¬ 0 < cmp (l.getD fro default) (l.getD (fro - 1) default)) := by
  unfold pu_choice
  split_ifs with h1 h2
  · exact Or.inl rfl
  · exact Or.inr ⟨rfl, h1, h2⟩
  · exact Or.inl rfl

theorem pu_loop_length (cmp : α → α → Int) :
    ∀ (fuel : Nat) (l : List α) (fro : Nat),
      (pu_loop cmp fuel l fro).length = l.length := by
  intro fuel
  induction fuel with
  | zero => intro l fro; rfl
  | succ fuel ih =>
    intro l fro
    unfold pu_loop
    split_ifs with h1 h2
    · rfl
    · rfl
    · rw [ih, swapItems_length]

/-- Master lemma for `percolate_up`'s loop: if every edge except the one
into `fro` holds, and the grandparent of `fro` dominates `fro`'s
children, the loop restores the full heap invariant. -/
theorem pu_loop_inv (hf : ∀ a b, 0 < cmp a b ↔ cmp b a < 0)
    (ht : ∀ a b c, 0 ≤ cmp a b → 0 ≤ cmp b c → 0 ≤ cmp a c) :
    ∀ (fuel : Nat) (l : List α) (fro : Nat), fro ≤ fuel → fro < l.length →
      (∀ p c, c < l.length → (c = 2 * p + 1 ∨ c = 2 * p + 2) → c ≠ fro →
        0 ≤ cmp (l.getD p default) (l.getD c default)) →
      (fro ≠ 0 → ∀ c, c < l.length →
        (c = 2 * fro + 1 ∨ c = 2 * fro + 2) →
        0 ≤ cmp (l.getD ((fro - 1) / 2) default) (l.getD c default)) →
      heapInv cmp (pu_loop cmp fuel l fro) := by
  intro fuel
  induction fuel with
  | zero =>
    intro l fro hfc hlen HP _ c h0c hcl
    have hfro : fro = 0 := by omega
    exact HP ((c - 1) / 2) c hcl (by omega) (by omega)
  | succ fuel ih =>
    intro l fro hfc hlen HP HG
    unfold pu_loop
    by_cases h0 : fro = 0
    · rw [if_pos h0]
      intro c h0c hcl
      exact HP ((c - 1) / 2) c hcl (by omega) (by omega)
    · rw [if_neg h0, pu_choice_fst cmp l h0]
      rcases pu_choice_snd cmp l fro with hb | ⟨hb, heven, hnc⟩
      · rw [hb]
        split_ifs with hret
        · -- the edge into fro already holds: full invariant
          intro c h0c hcl
          by_cases hcf : c = fro
          · rw [hcf]
            exact hret
          · exact HP ((c - 1) / 2) c hcl (by omega) hcf
        · -- swap with the parent and continue from there
          have hpar : (fro - 1) / 2 < fro := by omega
          have hparlen : (fro - 1) / 2 < l.length := by omega
          have hflip : 0 ≤ cmp (l.getD fro default)
              (l.getD ((fro - 1) / 2) default) :=
            cmp_lt_flip hf (by omega)
          apply ih (swapItems l ((fro - 1) / 2) fro) ((fro - 1) / 2)
            (by omega) (by rw [swapItems_length]; omega)
          · -- every edge except the one into the parent holds after swap
            intro p c hcl hcc hcp
            rw [swapItems_length] at hcl
            by_cases hcf : c = fro
            · have hppar : p = (fro - 1) / 2 := by omega
              rw [hcf, hppar, getD_swapItems_fst hparlen hlen,
                getD_swapItems_snd hparlen hlen]
              exact hflip
            · have hcne : c ≠ (fro - 1) / 2 := hcp
              by_cases hppar : p = (fro - 1) / 2
              · rw [hppar, getD_swapItems_fst hparlen hlen,
                  getD_swapItems_other hcne hcf]
                exact ht _ _ _ hflip
                  (HP ((fro - 1) / 2) c hcl (by omega) hcf)
              · by_cases hpf : p = fro
                · rw [hpf, getD_swapItems_snd hparlen hlen,
                    getD_swapItems_other hcne hcf]
                  exact HG h0 c hcl (by omega)
                · rw [getD_swapItems_other hppar hpf,
                    getD_swapItems_other hcne hcf]
                  exact HP p c hcl hcc hcf
          · -- the grandparent dominates the parent's children after swap
            intro hp0 c hcl hcc
            rw [swapItems_length] at hcl
            have hgp : ((fro - 1) / 2 - 1) / 2 < (fro - 1) / 2 := by omega
            have hgpne1 : ((fro - 1) / 2 - 1) / 2 ≠ (fro - 1) / 2 := by omega
            have hgpne2 : ((fro - 1) / 2 - 1) / 2 ≠ fro := by omega
            rw [getD_swapItems_other hgpne1 hgpne2]
            have hpc : 0 ≤ cmp (l.getD (((fro - 1) / 2 - 1) / 2) default)
                (l.getD ((fro - 1) / 2) default) :=
              HP (((fro - 1) / 2 - 1) / 2) ((fro - 1) / 2) hparlen
                (by omega) (by omega)
            by_cases hcf : c = fro
            · rw [hcf, getD_swapItems_snd hparlen hlen]
              exact hpc
            · have hcpar : c ≠ (fro - 1) / 2 := by omega
              rw [getD_swapItems_other hcpar hcf]
              exact ht _ _ _ hpc (HP ((fro - 1) / 2) c hcl (by omega) hcf)
      · -- even index dominated by its sibling: the comparison against the
        -- sibling cannot trigger a swap, and the chain through the sibling
        -- gives the missing edge
        rw [hb]
        have hsib : fro - 1 = 2 * ((fro - 1) / 2) + 1 := by omega
        have hsiblen : fro - 1 < l.length := by omega
        have hedge : 0 ≤ cmp (l.getD ((fro - 1) / 2) default)
            (l.getD (fro - 1) default) :=
          HP ((fro - 1) / 2) (fro - 1) hsiblen (by omega) (by omega)
        rw [if_pos hedge]
        intro c h0c hcl
        by_cases hcf : c = fro
        · rw [hcf]
          have hup : 0 ≤ cmp (l.getD (fro - 1) default)
              (l.getD fro default) := cmp_flip_nonneg hf (by omega)
          exact ht _ _ _ hedge hup
        · exact HP ((c - 1) / 2) c hcl (by omega) hcf

/-- `percolate_up` restores the heap invariant. -/
theorem percolate_up_inv (hf : ∀ a b, 0 < cmp a b ↔ cmp b a < 0)
    (ht : ∀ a b c, 0 ≤ cmp a b → 0 ≤ cmp b c → 0 ≤ cmp a c)
    (l : List α) (fro : Nat)
    (HP : ∀ p c, c < l.length → (c = 2 * p + 1 ∨ c = 2 * p + 2) →
      c ≠ fro → 0 ≤ cmp (l.getD p default) (l.getD c default))
    (HG : fro ≠ 0 → ∀ c, c < l.length →
      (c = 2 * fro + 1 ∨ c = 2 * fro + 2) →
      0 ≤ cmp (l.getD ((fro - 1) / 2) default) (l.getD c default)) :
    heapInv cmp (percolate_up cmp l fro) := by
  unfold percolate_up
  split_ifs with h
  · intro c h0c hcl
    refine HP ((c - 1) / 2) c hcl (by omega) ?_
    rcases h with h | h <;> omega
  · push_neg at h
    exact pu_loop_inv hf ht fro l fro (Nat.le_refl _) (by omega) HP HG

theorem percolate_up_length (cmp : α → α → Int) (l : List α) (fro : Nat) :
    (percolate_up cmp l fro).length = l.length := by
  unfold percolate_up
  split_ifs with h
  · rfl
  · exact pu_loop_length cmp fro l fro

end HeapProofs4

section HeapProofs5

variable {α : Type} [Inhabited α] {cmp : α → α → Int}

theorem getD_take {l : List α} {m i : Nat} (d : α) (h : i < m) :
    (l.take m).getD i d = l.getD i d := by
  rw [List.getD_eq_get?, List.get?_take h, ← List.getD_eq_get?]

theorem getD_last {l : List α} (h : l ≠ []) :
    l.getD (l.length - 1) default = l.getLast h := by
  rw [List.getLast_eq_getElem, List.getD_eq_getElem?_getD,
    List.getElem?_eq_getElem (by have := List.length_pos.mpr h; omega)]
  rfl

/-- `heap_insert` preserves the heap invariant. -/
theorem heap_insert_inv (hf : ∀ a b, 0 < cmp a b ↔ cmp b a < 0)
    (ht : ∀ a b c, 0 ≤ cmp a b → 0 ≤ cmp b c → 0 ≤ cmp a c)
    (l : List α) (x : α) (hInv : heapInv cmp l) :
    heapInv cmp (heap_insert cmp l x) := by
  have hInv0 : heapInvPar cmp l 0 := heapInv_iff_invPar_zero.mp hInv
  unfold heap_insert
  have hidx : (l ++ [x]).length - 1 = l.length := by simp
  rw [hidx]
  apply percolate_up_inv hf ht
  · intro p c hcl hcc hcf
    simp only [List.length_append, List.length_cons, List.length_nil] at hcl
    have hc : c < l.length := by omega
    have hp : p < l.length := by omega
    rw [List.getD_append _ _ _ _ hp, List.getD_append _ _ _ _ hc]
    exact hInv0 p c (Nat.zero_le _) hc hcc
  · intro h0 c hcl hcc
    simp only [List.length_append, List.length_cons, List.length_nil] at hcl
    omega

theorem heap_insert_length (cmp : α → α → Int) (l : List α) (x : α) :
    (heap_insert cmp l x).length = l.length + 1 := by
  unfold heap_insert
  rw [percolate_up_length]
  simp

/-- Writing a dominated value at `item` and percolating down restores the
invariant. -/
theorem pd_set_inv (hf : ∀ a b, 0 < cmp a b ↔ cmp b a < 0)
    (ht : ∀ a b c, 0 ≤ cmp a b → 0 ≤ cmp b c → 0 ≤ cmp a c)
    (l : List α) (item : Nat) (x : α) (hInv : heapInv cmp l)
    (hit : item < l.length) (hdir : 0 ≤ cmp (l.getD item default) x) :
    heapInv cmp (percolate_down cmp (l.set item x) item) := by
  have hlen : (l.set item x).length = l.length := by simp
  have hInv0 : heapInvPar cmp l 0 := heapInv_iff_invPar_zero.mp hInv
  have H : heapInvPar cmp (l.set item x) (item + 1) := by
    intro p c hp hc hcc
    rw [hlen] at hc
    have hpne : p ≠ item := by omega
    have hcne : c ≠ item := by omega
    rw [getD_set_ne _ _ (Ne.symm hpne), getD_set_ne _ _ (Ne.symm hcne)]
    exact hInv0 p c (Nat.zero_le _) hc hcc
  have hR := percolate_down_invPar hf ht (l.set item x) item H
  intro c h0c hcl
  rw [percolate_down_length, hlen] at hcl
  by_cases hpi : item ≤ (c - 1) / 2
  · exact hR ((c - 1) / 2) c hpi
      (by rw [percolate_down_length, hlen]; exact hcl) (by omega)
  · by_cases hci : c = item
    · subst hci
      have hpd : ¬ Desc c ((c - 1) / 2) := not_desc_of_lt (by omega)
      have hRp : (percolate_down cmp (l.set c x) c).getD
          ((c - 1) / 2) default = l.getD ((c - 1) / 2) default := by
        rw [percolate_down_untouched cmp _ hpd,
          getD_set_ne _ _ (Ne.symm (show (c - 1) / 2 ≠ c by omega))]
      have hbor : ∀ j, Desc c j → j < (l.set c x).length →
          0 ≤ cmp (l.getD c default) ((l.set c x).getD j default) := by
        intro j hj hjl
        rw [hlen] at hjl
        by_cases hji : j = c
        · rw [hji, getD_set_self _ _ hit]
          exact hdir
        · rw [getD_set_ne _ _ (Ne.symm hji)]
          exact desc_dominates hf ht hj
            (fun p' c' hp' hc' hcc' => hInv0 p' c' (Nat.zero_le _) hc' hcc')
            hjl
      have hbound := percolate_down_bound cmp (l.set c x) c
        (l.getD c default) hbor c (.refl _) (by rw [hlen]; exact hit)
      rw [hRp]
      exact ht _ _ _ (hInv c h0c hit) hbound
    · have hcd : ¬ Desc item c := by
        intro hd
        rcases hd.eq_or_ge with h | h
        · exact hci h
        · omega
      have hpd : ¬ Desc item ((c - 1) / 2) := not_desc_of_lt (by omega)
      rw [percolate_down_untouched cmp _ hpd,
        percolate_down_untouched cmp _ hcd,
        getD_set_ne _ _ (Ne.symm (show (c - 1) / 2 ≠ item by omega)),
        getD_set_ne _ _ (Ne.symm hci)]
      exact hInv c h0c hcl

/-- Writing any value at the root and percolating down restores the
invariant. -/
theorem set_root_pd_inv (hf : ∀ a b, 0 < cmp a b ↔ cmp b a < 0)
    (ht : ∀ a b c, 0 ≤ cmp a b → 0 ≤ cmp b c → 0 ≤ cmp a c)
    (l : List α) (x : α) (hInv : heapInv cmp l) :
    heapInv cmp (percolate_down cmp (l.set 0 x) 0) := by
  have hInv0 : heapInvPar cmp l 0 := heapInv_iff_invPar_zero.mp hInv
  have H : heapInvPar cmp (l.set 0 x) 1 := by
    intro p c hp hc hcc
    rw [List.length_set] at hc
    rw [getD_set_ne _ _ (show 0 ≠ p by omega),
      getD_set_ne _ _ (show 0 ≠ c by omega)]
    exact hInv0 p c (Nat.zero_le _) hc hcc
  exact heapInv_iff_invPar_zero.mpr (percolate_down_invPar hf ht _ 0 H)

/-- `updade_item` with the increasing direction and a non-decreasing new
value. -/
theorem updade_item_inc_inv (hf : ∀ a b, 0 < cmp a b ↔ cmp b a < 0)
    (ht : ∀ a b c, 0 ≤ cmp a b → 0 ≤ cmp b c → 0 ≤ cmp a c)
    (l : List α) (item : Nat) (x : α) (hInv : heapInv cmp l)
    (hit : item < l.length) (hdir : 0 ≤ cmp x (l.getD item default)) :
    heapInv cmp (updade_item cmp l item x true) := by
  have hInv0 : heapInvPar cmp l 0 := heapInv_iff_invPar_zero.mp hInv
  unfold updade_item
  rw [if_pos rfl]
  apply percolate_up_inv hf ht
  · intro p c hcl hcc hcf
    rw [List.length_set] at hcl
    rw [getD_set_ne _ _ (Ne.symm hcf)]
    by_cases hpi : p = item
    · rw [hpi, getD_set_self _ _ hit]
      exact ht _ _ _ hdir (hInv0 item c (Nat.zero_le _) hcl (hpi ▸ hcc))
    · rw [getD_set_ne _ _ (Ne.symm hpi)]
      exact hInv0 p c (Nat.zero_le _) hcl hcc
  · intro h0 c hcl hcc
    rw [List.length_set] at hcl
    have hpar : (item - 1) / 2 ≠ item := by omega
    have hcni : c ≠ item := by omega
    rw [getD_set_ne _ _ (Ne.symm hpar), getD_set_ne _ _ (Ne.symm hcni)]
    have h1 : 0 ≤ cmp (l.getD ((item - 1) / 2) default)
        (l.getD item default) :=
      hInv0 ((item - 1) / 2) item (Nat.zero_le _) hit (by omega)
    exact ht _ _ _ h1 (hInv0 item c (Nat.zero_le _) hcl hcc)

/-- `updade_item` with the decreasing direction and a non-increasing new
value. -/
theorem updade_item_dec_inv (hf : ∀ a b, 0 < cmp a b ↔ cmp b a < 0)
    (ht : ∀ a b c, 0 ≤ cmp a b → 0 ≤ cmp b c → 0 ≤ cmp a c)
    (l : List α) (item : Nat) (x : α) (hInv : heapInv cmp l)
    (hit : item < l.length) (hdir : 0 ≤ cmp (l.getD item default) x) :
    heapInv cmp (updade_item cmp l item x false) := by
  unfold updade_item
  rw [if_neg (by simp)]
  exact pd_set_inv hf ht l item x hInv hit hdir

theorem heap_replace_at_inv (hf : ∀ a b, 0 < cmp a b ↔ cmp b a < 0)
    (ht : ∀ a b c, 0 ≤ cmp a b → 0 ≤ cmp b c → 0 ≤ cmp a c)
    (l : List α) (item : Nat) (x : α) (hInv : heapInv cmp l) :
    heapInv cmp (heap_replace_at cmp l item x).2 := by
  unfold heap_replace_at
  split_ifs with h1 hc
  · exact hInv
  · exact updade_item_inc_inv hf ht l item x hInv (by omega)
      (le_of_lt ((hf x (l.getD item default)).mpr hc))
  · exact updade_item_dec_inv hf ht l item x hInv (by omega) (by omega)

theorem heap_update_at_inv (hf : ∀ a b, 0 < cmp a b ↔ cmp b a < 0)
    (ht : ∀ a b c, 0 ≤ cmp a b → 0 ≤ cmp b c → 0 ≤ cmp a c)
    (l : List α) (item : Nat) (x : α) (inc : Bool) (hInv : heapInv cmp l)
    (hdir : item < l.length →
      if inc then 0 ≤ cmp x (l.getD item default)
      else 0 ≤ cmp (l.getD item default) x) :
    heapInv cmp (heap_update_at cmp l item x inc).2 := by
  unfold heap_update_at
  split_ifs with h1
  · exact hInv
  · cases inc
    · exact updade_item_dec_inv hf ht l item x hInv (by omega)
        (by simpa using hdir (by omega))
    · exact updade_item_inc_inv hf ht l item x hInv (by omega)
        (by simpa using hdir (by omega))

theorem heap_extract_fst {l : List α} (cmp : α → α → Int)
    (h : l.length ≠ 0) :
    (heap_extract cmp l).1 = some (l.getD 0 default) := by
  unfold heap_extract
  split_ifs with h1 h2
  · exact absurd h1 h
  · rfl
  · rfl

theorem heap_extract_length (cmp : α → α → Int) {l : List α}
    (h : l.length ≠ 0) :
    (heap_extract cmp l).2.length = l.length - 1 := by
  unfold heap_extract
  split_ifs with h1 h2
  · exact absurd h1 h
  · simp [h2]
  · rw [percolate_down_length]
    simp only [List.length_take, List.length_set]
    omega

theorem heap_extract_inv (hf : ∀ a b, 0 < cmp a b ↔ cmp b a < 0)
    (ht : ∀ a b c, 0 ≤ cmp a b → 0 ≤ cmp b c → 0 ≤ cmp a c)
    (l : List α) (hInv : heapInv cmp l) :
    heapInv cmp (heap_extract cmp l).2 := by
  have hInv0 : heapInvPar cmp l 0 := heapInv_iff_invPar_zero.mp hInv
  unfold heap_extract
  split_ifs with h1 h2
  · exact hInv
  · exact heapInv_small (by simp)
  · apply heapInv_iff_invPar_zero.mpr
    apply percolate_down_invPar hf ht
    intro p c hp hc hcc
    simp only [List.length_take, List.length_set] at hc
    have hclt : c < l.length - 1 := by omega
    rw [getD_take _ (by omega), getD_take _ (by omega),
      getD_set_ne _ _ (show 0 ≠ p by omega),
      getD_set_ne _ _ (show 0 ≠ c by omega)]
    exact hInv0 p c (Nat.zero_le _) (by omega) hcc

/-- The root, followed by the remaining items after `heap_extract`, is a
permutation of the original contents. -/
theorem heap_extract_perm (cmp : α → α → Int) {l : List α}
    (h : l.length ≠ 0) :
    (l.getD 0 default :: (heap_extract cmp l).2).Perm l := by
  unfold heap_extract
  split_ifs with h1 h2
  · exact absurd h1 h
  · obtain ⟨a, rfl⟩ := List.length_eq_one.mp h2
    exact List.Perm.refl _
  · refine List.Perm.trans (List.Perm.cons _ (percolate_down_perm cmp _ 0)) ?_
    cases l with
    | nil => simp at h
    | cons a t =>
      have htne : t ≠ [] := by
        intro he
        rw [he] at h2
        exact h2 rfl
      have hm : ∃ m, t.length = m + 1 :=
        ⟨t.length - 1, by have := List.length_pos.mpr htne; omega⟩
      obtain ⟨m, hm⟩ := hm
      have hb : (a :: t).getD ((a :: t).length - 1) default = t.getLast htne := by
        have h3 : (a :: t).length - 1 = m + 1 := by simp [hm]
        rw [h3]
        show t.getD m default = t.getLast htne
        have h4 : m = t.length - 1 := by omega
        rw [h4]
        exact getD_last htne
      rw [hb]
      have h5 : ((a :: t).set 0 (t.getLast htne)).take ((a :: t).length - 1) =
          t.getLast htne :: t.dropLast := by
        have h6 : (a :: t).set 0 (t.getLast htne) = t.getLast htne :: t := rfl
        rw [h6]
        have h7 : (a :: t).length - 1 = t.length := by simp
        rw [h7, hm]
        show t.getLast htne :: t.take m = t.getLast htne :: t.dropLast
        rw [List.dropLast_eq_take, hm]
        simp
      rw [h5]
      refine List.Perm.cons a ?_
      conv_rhs => rw [← List.dropLast_append_getLast htne]
      exact (List.perm_append_singleton _ _).symm

/-- The heap root dominates every stored element. -/
theorem heap_root_dominates (hf : ∀ a b, 0 < cmp a b ↔ cmp b a < 0)
    (ht : ∀ a b c, 0 ≤ cmp a b → 0 ≤ cmp b c → 0 ≤ cmp a c)
    (l : List α) (hInv : heapInv cmp l) :
    ∀ x ∈ l, 0 ≤ cmp (l.getD 0 default) x := by
  have hInv0 : heapInvPar cmp l 0 := heapInv_iff_invPar_zero.mp hInv
  intro x hx
  obtain ⟨n, hn⟩ := List.mem_iff_get?.mp hx
  have hlt : n < l.length := get?_eq_some_lt hn
  have hxd : l.getD n default = x := by
    rw [List.getD_eq_get?, hn]
    rfl
  rw [← hxd]
  exact desc_dominates hf ht (desc_root n)
    (fun p' c' hp' hc' hcc' => hInv0 p' c' (Nat.zero_le _) hc' hcc') hlt

theorem heap_insert_then_extract_inv (hf : ∀ a b, 0 < cmp a b ↔ cmp b a < 0)
    (ht : ∀ a b c, 0 ≤ cmp a b → 0 ≤ cmp b c → 0 ≤ cmp a c)
    (l : List α) (x : α) (hInv : heapInv cmp l) :
    heapInv cmp (heap_insert_then_extract cmp l x).2 := by
  unfold heap_insert_then_extract
  split_ifs with h1 h2
  · exact hInv
  · exact hInv
  · exact set_root_pd_inv hf ht l x hInv

theorem heap_extract_then_insert_inv (hf : ∀ a b, 0 < cmp a b ↔ cmp b a < 0)
    (ht : ∀ a b c, 0 ≤ cmp a b → 0 ≤ cmp b c → 0 ≤ cmp a c)
    (l : List α) (x : α) (hInv : heapInv cmp l) :
    heapInv cmp (heap_extract_then_insert cmp l x).2 := by
  unfold heap_extract_then_insert
  split_ifs with h1
  · exact heapInv_small (by simp [h1])
  · exact set_root_pd_inv hf ht l x hInv

end HeapProofs5

section HeapProofs6

variable {α : Type} [Inhabited α] {cmp : α → α → Int}

/-- `check_children` verifies exactly the parent-child edges of the
subtree below `parent`. -/
theorem check_children_iff (cmp : α → α → Int) :
    ∀ (fuel : Nat) (l : List α) (p : Nat), l.length ≤ fuel + p →
      (check_children cmp fuel l p = true ↔
        ∀ j, Desc p j → ∀ c, (c = 2 * j + 1 ∨ c = 2 * j + 2) →
          c < l.length → 0 ≤ cmp (l.getD j default) (l.getD c default)) := by
  intro fuel
  induction fuel with
  | zero =>
    intro l p hfc
    constructor
    · intro _ j hj c hcc hcl
      have := hj.le
      omega
    · intro _
      rfl
  | succ fuel ih =>
    intro l p hfc
    unfold check_children
    split_ifs with h1 h2 h3 h4
    · constructor
      · intro _ j hj c hcc hcl
        have := hj.le
        omega
      · intro _
        rfl
    · constructor
      · intro hfalse
        simp at hfalse
      · intro hRHS
        exfalso
        have := hRHS p (.refl _) (2 * p + 1) (Or.inl rfl) (by omega)
        omega
    · constructor
      · intro hfalse
        simp at hfalse
      · intro hRHS
        exfalso
        have := hRHS p (.refl _) (2 * p + 2) (Or.inr rfl) (by omega)
        omega
    · rw [Bool.and_eq_true, ih l (2 * p + 2) (by omega),
        ih l (2 * p + 1) (by omega)]
      constructor
      · rintro ⟨hr, hl'⟩ j hj c hcc hcl
        rcases hj.inv with hj1 | hj2 | hj3
        · subst hj1
          rcases hcc with hcc | hcc
          · rw [hcc]
            omega
          · rw [hcc]
            omega
        · exact hl' j hj2 c hcc hcl
        · exact hr j hj3 c hcc hcl
      · intro hRHS
        exact ⟨fun j hj c hcc hcl => hRHS j (.right hj) c hcc hcl,
               fun j hj c hcc hcl => hRHS j (.left hj) c hcc hcl⟩
    · rw [ih l (2 * p + 1) (by omega)]
      constructor
      · intro hl' j hj c hcc hcl
        rcases hj.inv with hj1 | hj2 | hj3
        · subst hj1
          rcases hcc with hcc | hcc
          · rw [hcc]
            omega
          · omega
        · exact hl' j hj2 c hcc hcl
        · have := hj3.le
          omega
      · intro hRHS j hj c hcc hcl
        exact hRHS j (.left hj) c hcc hcl

/-- `heap_check` decides the heap invariant. -/
theorem heap_check_iff_inv {l : List α} :
    heap_check cmp l = true ↔ heapInv cmp l := by
  unfold heap_check
  split_ifs with h
  · exact iff_of_true rfl (heapInv_small (by omega))
  · rw [check_children_iff cmp l.length l 0 (by omega)]
    constructor
    · intro hall c h0c hcl
      exact hall ((c - 1) / 2) (desc_root _) c (by omega) hcl
    · intro hInv j _ c hcc hcl
      have hh := hInv c (by omega) hcl
      have hj : (c - 1) / 2 = j := by omega
      rw [hj] at hh
      exact hh

/-- Repeated extraction from a valid heap yields its contents in
descending comparator order. -/
theorem extract_all_spec (hf : ∀ a b, 0 < cmp a b ↔ cmp b a < 0)
    (ht : ∀ a b c, 0 ≤ cmp a b → 0 ≤ cmp b c → 0 ≤ cmp a c) :
    ∀ (fuel : Nat) (l : List α), l.length ≤ fuel → heapInv cmp l →
      (extract_all cmp fuel l).Perm l ∧
      List.Pairwise (fun a b => 0 ≤ cmp a b) (extract_all cmp fuel l) := by
  intro fuel
  induction fuel with
  | zero =>
    intro l hl _
    have hnil : l = [] := List.length_eq_zero.mp (by omega)
    subst hnil
    exact ⟨List.Perm.refl _, List.Pairwise.nil⟩
  | succ fuel ih =>
    intro l hl hInv
    unfold extract_all
    split_ifs with h0
    · have hnil : l = [] := List.length_eq_zero.mp h0
      subst hnil
      exact ⟨List.Perm.refl _, List.Pairwise.nil⟩
    · have hre : heap_extract cmp l =
          (some (l.getD 0 default), (heap_extract cmp l).2) := by
        rw [← heap_extract_fst cmp h0]
      rw [hre]
      have hlen2 : (heap_extract cmp l).2.length = l.length - 1 :=
        heap_extract_length cmp h0
      have hInv2 : heapInv cmp (heap_extract cmp l).2 :=
        heap_extract_inv hf ht l hInv
      obtain ⟨hperm, hpw⟩ := ih (heap_extract cmp l).2 (by omega) hInv2
      have hperm2 : (l.getD 0 default :: (heap_extract cmp l).2).Perm l :=
        heap_extract_perm cmp h0
      constructor
      · exact (hperm.cons _).trans hperm2
      · refine List.Pairwise.cons ?_ hpw
        intro b hb
        have hb2 : b ∈ (heap_extract cmp l).2 := hperm.mem_iff.mp hb
        have hb3 : b ∈ l := hperm2.mem_iff.mp (List.mem_cons_of_mem _ hb2)
        exact heap_root_dominates hf ht l hInv b hb3

/-- The bottom-up heapify loop establishes the invariant. -/
theorem heapify_loop_spec (hf : ∀ a b, 0 < cmp a b ↔ cmp b a < 0)
    (ht : ∀ a b c, 0 ≤ cmp a b → 0 ≤ cmp b c → 0 ≤ cmp a c) :
    ∀ (i : Nat) (l : List α), heapInvPar cmp l (i + 1) →
      heapInv cmp (heapify_loop cmp l i) ∧
      (heapify_loop cmp l i).Perm l := by
  intro i
  induction i with
  | zero =>
    intro l H
    exact ⟨heapInv_iff_invPar_zero.mpr (percolate_down_invPar hf ht l 0 H),
      percolate_down_perm cmp l 0⟩
  | succ i ih =>
    intro l H
    have h1 := percolate_down_invPar hf ht l (i + 1) H
    obtain ⟨ha, hb⟩ := ih (percolate_down cmp l (i + 1)) h1
    exact ⟨ha, hb.trans (percolate_down_perm cmp l (i + 1))⟩

/-- Heapify: `new_heap_from_slice` builds a valid heap holding the same
multiset of items. -/
theorem new_heap_from_slice_spec (hf : ∀ a b, 0 < cmp a b ↔ cmp b a < 0)
    (ht : ∀ a b c, 0 ≤ cmp a b → 0 ≤ cmp b c → 0 ≤ cmp a c)
    (l : List α) :
    heapInv cmp (new_heap_from_slice cmp l) ∧
    (new_heap_from_slice cmp l).Perm l := by
  unfold new_heap_from_slice
  split_ifs with h
  · exact heapify_loop_spec hf ht ((l.length - 1) / 2) l
      (heapInvPar_vacuous (by omega))
  · exact ⟨heapInv_small (by omega), List.Perm.refl _⟩

/-- Every operation of the heap API preserves the invariant (with the
correct direction for `heap_update_at`). -/
theorem applyOp_inv (hf : ∀ a b, 0 < cmp a b ↔ cmp b a < 0)
    (ht : ∀ a b c, 0 ≤ cmp a b → 0 ≤ cmp b c → 0 ≤ cmp a c)
    (l : List α) (op : HeapOp α) (hInv : heapInv cmp l)
    (hok : opOk cmp l op) : heapInv cmp (applyOp cmp l op) := by
  cases op with
  | insert x => exact heap_insert_inv hf ht l x hInv
  | extract => exact heap_extract_inv hf ht l hInv
  | replaceAt i x => exact heap_replace_at_inv hf ht l i x hInv
  | updateAt i x inc => exact heap_update_at_inv hf ht l i x inc hInv hok
  | insertThenExtract x => exact heap_insert_then_extract_inv hf ht l x hInv
  | extractThenInsert x => exact heap_extract_then_insert_inv hf ht l x hInv

theorem applyOps_inv (hf : ∀ a b, 0 < cmp a b ↔ cmp b a < 0)
    (ht : ∀ a b c, 0 ≤ cmp a b → 0 ≤ cmp b c → 0 ≤ cmp a c) :
    ∀ (ops : List (HeapOp α)) (l : List α), ValidSeq cmp l ops →
      heapInv cmp l → heapInv cmp (applyOps cmp l ops) := by
  intro ops
  induction ops with
  | nil => intro l _ hInv; exact hInv
  | cons op ops ih =>
    intro l hvs hInv
    cases hvs with
    | cons hok htail => exact ih _ htail (applyOp_inv hf ht l op hInv hok)

end HeapProofs6

/-- The integer comparator is sign-consistent. -/
theorem intCmp_flip : ∀ a b : Int, 0 < intCmp a b ↔ intCmp b a < 0 := by
  intro a b
  unfold intCmp
  split_ifs <;> omega

/-- The integer comparator is transitive on non-strict domination. -/
theorem intCmp_trans :
    ∀ a b c : Int, 0 ≤ intCmp a b → 0 ≤ intCmp b c → 0 ≤ intCmp a c := by
  intro a b c
  unfold intCmp
  split_ifs <;> omega

/-! ### Claims C6, C7 and C9: the heap -/

/-- C6: for every multiset of items and every total-order comparator,
building the heap (`new_heap_from_slice` / `new_heap_from_data`, which
percolate down from index `(n-1)/2` back to the root) yields a heap
satisfying the invariant that holds exactly the input items, and the
sequence of `n` successive `heap_extract` calls returns those items in
descending comparator order. -/
theorem C6_heapify_builds_heap_and_extracts_sorted {α : Type} [Inhabited α]
    (cmp : α → α → Int)
    (hf : ∀ a b, 0 < cmp a b ↔ cmp b a < 0)
    (ht : ∀ a b c, 0 ≤ cmp a b → 0 ≤ cmp b c → 0 ≤ cmp a c)
    (l : List α) :
    heapInv cmp (new_heap_from_slice cmp l) ∧
    heapInv cmp (new_heap_from_data cmp l) ∧
    (new_heap_from_slice cmp l).Perm l ∧
    (heap_extract_sequence cmp (new_heap_from_slice cmp l)).Perm l ∧
    List.Pairwise (fun a b => 0 ≤ cmp a b)
      (heap_extract_sequence cmp (new_heap_from_slice cmp l)) := by
  obtain ⟨hInv, hperm⟩ := new_heap_from_slice_spec hf ht l
  have hseq := extract_all_spec hf ht (new_heap_from_slice cmp l).length
    (new_heap_from_slice cmp l) (Nat.le_refl _) hInv
  exact ⟨hInv, hInv, hperm, hseq.1.trans hperm, hseq.2⟩

/-- Witness for C6: the concrete max-heap scenario over the integers
`[5,1,9,3,7]` — the extract sequence is exactly `9,7,5,3,1`. -/
theorem C6_heapify_witness :
    heap_extract_sequence intCmp (new_heap_from_slice intCmp [5, 1, 9, 3, 7]) =
      [9, 7, 5, 3, 1] ∧
    heapInv intCmp (new_heap_from_slice intCmp [5, 1, 9, 3, 7]) ∧
    (heap_extract_sequence intCmp
      (new_heap_from_slice intCmp [5, 1, 9, 3, 7])).Perm [5, 1, 9, 3, 7] := by
  have h := C6_heapify_builds_heap_and_extracts_sorted intCmp intCmp_flip
    intCmp_trans [5, 1, 9, 3, 7]
  exact ⟨by decide, h.1, h.2.2.2.1⟩

/-- C7: starting from a heap satisfying the invariant, any sequence of
`heap_insert`, `heap_extract`, `heap_replace_at`, `heap_update_at` (with
the correct direction), `heap_insert_then_extract` and
`heap_extract_then_insert` leaves the invariant intact and `heap_check`
true, and `heap_extract` returns an element the comparator places greater
than or equal to every stored element. -/
theorem C7_operations_preserve_invariant {α : Type} [Inhabited α]
    (cmp : α → α → Int)
    (hf : ∀ a b, 0 < cmp a b ↔ cmp b a < 0)
    (ht : ∀ a b c, 0 ≤ cmp a b → 0 ≤ cmp b c → 0 ≤ cmp a c)
    (l : List α) (hInv : heapInv cmp l) :
    (∀ ops, ValidSeq cmp l ops →
      heapInv cmp (applyOps cmp l ops) ∧
      heap_check cmp (applyOps cmp l ops) = true) ∧
    (l.length ≠ 0 →
      (heap_extract cmp l).1 = some (l.getD 0 default) ∧
      ∀ x ∈ l, 0 ≤ cmp (l.getD 0 default) x) := by
  constructor
  · intro ops hvs
    have h1 := applyOps_inv hf ht ops l hvs hInv
    exact ⟨h1, heap_check_iff_inv.mpr h1⟩
  · intro h0
    exact ⟨heap_extract_fst cmp h0, heap_root_dominates hf ht l hInv⟩

/-- Witness for C7: a concrete integer max-heap taken through one
operation of each kind; the invariant and `heap_check` hold afterwards,
and the extract result dominates a stored element. -/
theorem C7_operations_witness :
    (heapInv intCmp (applyOps intCmp [9, 5, 7, 1, 3]
      [.insert 6, .extract, .replaceAt 1 4, .updateAt 0 1000 true,
       .insertThenExtract 2, .extractThenInsert 8]) ∧
     heap_check intCmp (applyOps intCmp [9, 5, 7, 1, 3]
      [.insert 6, .extract, .replaceAt 1 4, .updateAt 0 1000 true,
       .insertThenExtract 2, .extractThenInsert 8]) = true) ∧
    (heap_extract intCmp [9, 5, 7, 1, 3]).1 =
      some (([9, 5, 7, 1, 3] : List Int).getD 0 default) ∧
    0 ≤ intCmp (([9, 5, 7, 1, 3] : List Int).getD 0 default) 3 := by
  have hInv : heapInv intCmp [9, 5, 7, 1, 3] :=
    heap_check_iff_inv.mp (by decide)
  have h := C7_operations_preserve_invariant intCmp intCmp_flip intCmp_trans
    [9, 5, 7, 1, 3] hInv
  have hvs : ValidSeq intCmp [9, 5, 7, 1, 3]
      [.insert 6, .extract, .replaceAt 1 4, .updateAt 0 1000 true,
       .insertThenExtract 2, .extractThenInsert 8] := by
    refine .cons ?_ (.cons ?_ (.cons ?_ (.cons ?_ (.cons ?_
      (.cons ?_ (.nil _))))))
    · exact trivial
    · exact trivial
    · exact trivial
    · intro _
      decide
    · exact trivial
    · exact trivial
  exact ⟨h.1 _ hvs, (h.2 (by decide)).1, (h.2 (by decide)).2 3 (by decide)⟩

/-- C9: `heap_insert_then_extract` returns the new value unchanged with no
structural change when the heap is empty, returns it unchanged leaving the
heap unmodified when it strictly dominates the current root, and otherwise
writes it into the root slot, percolates down — restoring the invariant —
and returns the element that was the root. -/
theorem C9_insert_then_extract_cases {α : Type} [Inhabited α]
    (cmp : α → α → Int)
    (hf : ∀ a b, 0 < cmp a b ↔ cmp b a < 0)
    (ht : ∀ a b c, 0 ≤ cmp a b → 0 ≤ cmp b c → 0 ≤ cmp a c)
    (l : List α) (x : α) (hInv : heapInv cmp l) :
    (l.length = 0 → heap_insert_then_extract cmp l x = (x, l)) ∧
    (l.length ≠ 0 → 0 < cmp x (l.getD 0 default) →
      heap_insert_then_extract cmp l x = (x, l)) ∧
    (l.length ≠ 0 → ¬ 0 < cmp x (l.getD 0 default) →
      heap_insert_then_extract cmp l x =
        (l.getD 0 default, percolate_down cmp (l.set 0 x) 0) ∧
      heapInv cmp (heap_insert_then_extract cmp l x).2) := by
  refine ⟨?_, ?_, ?_⟩
  · intro h0
    unfold heap_insert_then_extract
    rw [if_pos h0]
  · intro h0 hgt
    unfold heap_insert_then_extract
    rw [if_neg h0, if_pos hgt]
  · intro h0 hle
    unfold heap_insert_then_extract
    rw [if_neg h0, if_neg hle]
    exact ⟨rfl, set_root_pd_inv hf ht l x hInv⟩

/-- Witness for C9: inserting 4 into the integer max-heap `[9,5,7]`
returns the old root 9, writes 4 into the root slot and percolates down,
and the result satisfies the invariant. -/
theorem C9_insert_then_extract_witness :
    heap_insert_then_extract intCmp [9, 5, 7] 4 =
      (([9, 5, 7] : List Int).getD 0 default,
       percolate_down intCmp (([9, 5, 7] : List Int).set 0 4) 0) ∧
    heapInv intCmp (heap_insert_then_extract intCmp [9, 5, 7] 4).2 := by
  have hInv : heapInv intCmp [9, 5, 7] := heap_check_iff_inv.mp (by decide)
  exact (C9_insert_then_extract_cases intCmp intCmp_flip intCmp_trans
    [9, 5, 7] 4 hInv).2.2 (by decide) (by decide)
